import Mathlib

/-!
Verification of the document-term matrix construction pipeline of
`collection.py` (tokenization, type/token indexing, sparse frequency
counting, feature filtering), via a shallow embedding in Lean 4.

Modelling conventions:
* Python strings are Lean `String`s / `List Char`; `str.lower()` is
  `Char.toLower` mapped over the characters (faithful on the ASCII inputs
  the claims exercise).
* The `regex` patterns are modelled by a small regular-expression type
  `RE` with the prioritized (backtracking, PCRE-style) matching semantics
  that `regex.finditer` uses: alternatives are tried left to right and
  `*` is greedy; `finditer` scans positions left to right, and after an
  empty match advances by one character, exactly as Python does.
* Python `dict` / `Counter` values are association lists in insertion
  order; a Python `set` is modelled as a first-occurrence-ordered
  duplicate-free list (`pySet`), which fixes the implementation-defined
  hash iteration order deterministically.  Keys of the frequency
  dictionary are `PyKey` (a document label — a string — or an integer):
  the source stores counters under labels but reads them back through
  integer subscripts, and a string key never equals an integer key.
  Reading a missing key of a `defaultdict` yields the default value; the
  insertion this performs as a side effect is invisible to later reads,
  so the dictionary is modelled persistently.
* pandas structures are modelled by lists: a `DataFrame` with an index is
  a list of (label, row) pairs; a `MultiIndex` is a list of tuples.
  `Series.sort_values(ascending=False)` reverses a stable ascending
  argsort, so among tied values the later-positioned element comes first;
  `sort_values_desc` realizes exactly that order.
  `pd.MultiIndex.from_tuples` raises on an empty tuple list, and indexing
  a `dict` with a missing key raises `KeyError`; fallible operations
  therefore return `Except PdError`.
-/

/-! ### Character classes (Unicode properties restricted to the scripts the
corpus inputs use) -/

/-- `\p{Letter}`: modelled by `Char.isAlpha`. -/
def isLetterCh (c : Char) : Bool := c.isAlpha

/-- `\p{Punctuation}`: modelled by the common punctuation characters. -/
def isPunctCh (c : Char) : Bool :=
  c = '.' || c = ',' || c = ';' || c = ':' || c = '!' || c = '?' ||
  c = '-' || c = '\'' || c = '"' || c = '(' || c = ')' ||
  c = '[' || c = ']' || c = '_' || c = '/'

/-- `[\p{Letter}\p{Punctuation}]`. -/
def isLPCh (c : Char) : Bool := isLetterCh c || isPunctCh c

/-- `\w`: word character. -/
def isWordCh (c : Char) : Bool := c.isAlphanum || c = '_'

/-! ### Regular expressions with prioritized (backtracking) matching -/

/-- Regular expressions over character classes, the fragment needed for the
patterns `collection.py` compiles. -/
inductive RE where
  | eps : RE
  | cls : (Char → Bool) → RE
  | cat : RE → RE → RE
  | alt : RE → RE → RE
  | star : RE → RE

/-- Does the pattern match the empty string? -/
def RE.nullable : RE → Bool
  | .eps => true
  | .cls _ => false
  | .cat r1 r2 => r1.nullable && r2.nullable
  | .alt r1 r2 => r1.nullable || r2.nullable
  | .star _ => true

/-- The size of a pattern, used only to supply sufficient fuel to the
matcher. -/
def RE.size : RE → Nat
  | .eps => 1
  | .cls _ => 1
  | .cat r1 r2 => r1.size + r2.size + 1
  | .alt r1 r2 => r1.size + r2.size + 1
  | .star r => r.size + 1

/-- All lengths of matches of `r` at the start of `cs`, in backtracking
priority order (first alternative first, `*` greedy).  As in PCRE, a `*`
iteration that matched the empty string is not repeated.  The fuel bounds
the recursion depth; `firstMatchLen` supplies enough for the search to be
exhaustive. -/
def matchLens : Nat → RE → List Char → List Nat
  | 0, _, _ => []
  | _ + 1, .eps, _ => [0]
  | _ + 1, .cls _, [] => []
  | _ + 1, .cls p, c :: _ => if p c then [1] else []
  | fuel + 1, .alt r1 r2, cs => matchLens fuel r1 cs ++ matchLens fuel r2 cs
  | fuel + 1, .cat r1 r2, cs =>
    (matchLens fuel r1 cs).flatMap
      (fun n => (matchLens fuel r2 (cs.drop n)).map (fun m => n + m))
  | fuel + 1, .star r, cs =>
    ((matchLens fuel r cs).filter (fun n => n != 0)).flatMap
      (fun n => (matchLens fuel (.star r) (cs.drop n)).map (fun m => n + m))
      ++ [0]

/-- The length of the first (highest-priority) match of `r` at the start of
`cs`, if any. -/
def firstMatchLen (r : RE) (cs : List Char) : Option Nat :=
  (matchLens ((cs.length + 1) * (r.size + 1)) r cs).head?

/-- `pattern.finditer(text)`: all non-overlapping matches, scanning left to
right; after an empty match the scan advances by one character.  The fuel
bounds the number of scan steps; `cs.length` is always enough since every
step discards at least one character. -/
def finditerF : Nat → RE → List Char → List (List Char)
  | _, r, [] => if firstMatchLen r [] = some 0 then [[]] else []
  | 0, _, _ :: _ => []
  | fuel + 1, r, c :: cs =>
    match firstMatchLen r (c :: cs) with
    | some (n + 1) => (c :: cs).take (n + 1) :: finditerF fuel r ((c :: cs).drop (n + 1))
    | some 0 => [] :: finditerF fuel r cs
    | none => finditerF fuel r cs

/-- `pattern.finditer(text)` with the fuel instantiated sufficiently. -/
def finditer (r : RE) (cs : List Char) : List (List Char) :=
  finditerF cs.length r cs

/-- The default pattern
`r'\p{Letter}[\p{Letter}\p{Punctuation}]*\p{Letter}|\p{Letter}{1}'`
(module-level `regular_expression`). -/
def regular_expression : RE :=
  .alt (.cat (.cls isLetterCh) (.cat (.star (.cls isLPCh)) (.cls isLetterCh)))
       (.cls isLetterCh)

/-- The simple pattern `r'\w+'`. -/
def wordRunRE : RE := .cat (.cls isWordCh) (.star (.cls isWordCh))

/-- `doc_txt.lower()`. -/
def pyLower (s : String) : String := String.mk (s.data.map Char.toLower)

/-- `regex.sub("\.", "", s)`: delete every literal period. -/
def stripPeriods (s : String) : String := String.mk (s.data.filter (fun c => c != '.'))

/-- `tokenize(doc_txt, expression, simple)`: lower-case, delete periods,
then yield the matches of the chosen pattern in order. -/
def tokenize (doc_txt : String) (expression : RE) (simple : Bool) : List String :=
  let t := stripPeriods (pyLower doc_txt)
  let pattern := if simple then wordRunRE else expression
  (finditer pattern t.data).map String.mk

/-! ### Python sets and Counters -/

/-- Worker for `pySet`: keeps the first occurrence of each element and
discards its later duplicates.  The fuel bounds the recursion depth;
the list's length is always enough. -/
def pySetF {α : Type} [BEq α] : Nat → List α → List α
  | _, [] => []
  | 0, _ :: _ => []
  | fuel + 1, x :: xs => x :: pySetF fuel (xs.filter (fun y => y != x))

/-- A Python `set(l)`, with the implementation-defined iteration order fixed
deterministically to first-occurrence order. -/
def pySet {α : Type} [BEq α] (l : List α) : List α := pySetF l.length l

/-- A per-document frequency mapping (`collections.Counter`): an association
list from type id to count, in key insertion order. -/
abbrev Counter := List (Nat × Nat)

/-- `Counter(l)`: one entry per distinct element of `l`, in first-occurrence
order, carrying its multiplicity. -/
def pyCounter (l : List Nat) : Counter :=
  (pySet l).map (fun k => (k, l.count k))

/-- `c.keys()`. -/
def counterKeys (c : Counter) : List Nat := c.map (fun p => p.1)

/-- `c[t]` on a `Counter`: the stored count, or `0` when `t` is absent. -/
def counterVal (c : Counter) (t : Nat) : Nat := (c.lookup t).getD 0

/-- The sum of the stored counts of a counter (the document's total token
count as computed directly from the counter's output). -/
def countSum (c : Counter) : Nat := (c.map (fun p => p.2)).sum

/-- A type's total corpus frequency, computed directly from the per-document
counters. -/
def corpusFreq (largecounter : List Counter) (t : Nat) : Nat :=
  (largecounter.map (fun c => counterVal c t)).sum

/-! ### Vocabulary indexer and frequency counter -/

/-- `doc_dictionary[label].append(tempset)` on a `defaultdict(list)`. -/
def dictAppend (d : List (String × List (List String))) (k : String)
    (v : List String) : List (String × List (List String)) :=
  if d.any (fun p => p.1 == k) then
    d.map (fun p => if p.1 == k then (p.1, p.2 ++ [v]) else p)
  else d ++ [(k, [v])]

/-- `create_large_TF_matrix(doc_labels, doc_tokens)`: accumulates the corpus
type set (case-folded, one pass over the zipped labels/token lists), the
per-label list of per-document type sets, and returns
`(type_dictionary, doc_dictionary, doc_ids)` with ids assigned by
enumeration. -/
def create_large_TF_matrix (doc_labels : List String)
    (doc_tokens : List (List String)) :
    List (Nat × String) × List (String × List (List String)) × List (Nat × String) :=
  let folded := (doc_labels.zip doc_tokens).foldl
    (fun st p =>
      let tempset := pySet (p.2.map pyLower)
      (st.1 ++ tempset.filter (fun t => !st.1.contains t),
       dictAppend st.2 p.1 tempset))
    ([], [])
  let type_dictionary := folded.1.enum
  let doc_ids := doc_labels.enum
  (type_dictionary, folded.2, doc_ids)

/-! ### Sparse matrix builder -/

/-- Failures of the pandas structures the builder uses. -/
inductive PdError where
  | emptyTupleList : PdError
  | keyError : PdError
deriving DecidableEq

/-- A Python dictionary key as `largecounter` uses them: the document
labels the counter is stored under (strings — in the pipeline, file
paths), or the integers `create_sparse_index` / `populate_two` index the
dictionary with.  A string key and an integer key never compare equal. -/
inductive PyKey where
  | str : String → PyKey
  | int : Nat → PyKey
deriving DecidableEq

/-- `largecounter[doc] = Counter(...)`: dictionary assignment — overwrite
in place when the key is present, append otherwise. -/
def dictSet (d : List (PyKey × Counter)) (k : PyKey) (v : Counter) :
    List (PyKey × Counter) :=
  if d.any (fun p => p.1 == k) then
    d.map (fun p => if p.1 == k then (k, v) else p)
  else d ++ [(k, v)]

/-- `[termdoc_matrix[token.lower()] for token in tokens]`: the list
comprehension evaluates left to right and raises `KeyError` at the first
token outside the vocabulary. -/
def pyListComp (termdoc_matrix : List (String × Nat)) :
    List String → Except PdError (List Nat)
  | [] => .ok []
  | token :: rest =>
    match termdoc_matrix.lookup (pyLower token) with
    | some i => (pyListComp termdoc_matrix rest).map (fun ids => i :: ids)
    | none => .error PdError.keyError

/-- One iteration of `create_large_counter`'s loop:
`largecounter[doc] = Counter([termdoc_matrix[token.lower()] for token in tokens])`. -/
def clcStep (termdoc_matrix : List (String × Nat))
    (largecounter : List (PyKey × Counter)) (p : PyKey × List String) :
    Except PdError (List (PyKey × Counter)) :=
  match pyListComp termdoc_matrix p.2 with
  | .ok ids => .ok (dictSet largecounter p.1 (pyCounter ids))
  | .error e => .error e

/-- `create_large_counter(doc_labels, doc_tokens, termdoc_matrix)`: a
`defaultdict(dict)` mapping each document LABEL to the `Counter` of its
type ids, built over the zipped labels/token lists. -/
def create_large_counter (doc_labels : List PyKey)
    (doc_tokens : List (List String))
    (termdoc_matrix : List (String × Nat)) :
    Except PdError (List (PyKey × Counter)) :=
  (doc_labels.zip doc_tokens).foldlM (clcStep termdoc_matrix) []

/-- The per-document counters `create_sparse_index` and `populate_two`
actually observe: both read `largecounter` only through the integer
subscripts `0 .. len(largecounter)-1` (and `len` is taken before any such
read), and on a `defaultdict(dict)` a missing key yields `{}` — inserting
the default as a side effect, which later reads cannot distinguish.
`countersSeen` tabulates exactly those reads, so applying the (id-indexed)
builders to it reproduces applying the source functions to the label-keyed
dictionary itself. -/
def countersSeen (largecounter : List (PyKey × Counter)) : List Counter :=
  (List.range largecounter.length).map
    (fun key => (largecounter.lookup (PyKey.int key)).getD [])

/-- Reference value (proof side): the counter `create_large_counter` stores
for a document whose tokens are all in the vocabulary. -/
def counterOfTokens (termdoc_matrix : List (String × Nat))
    (tokens : List String) : Counter :=
  pyCounter (tokens.map (fun token => (termdoc_matrix.lookup (pyLower token)).getD 0))

/-- Reference value (proof side): the per-document counters in position
order, as `countersSeen` recovers them under the integer labeling
`0 .. n-1`. -/
def countersOf (doc_tokens : List (List String))
    (termdoc_matrix : List (String × Nat)) : List Counter :=
  doc_tokens.map (counterOfTokens termdoc_matrix)

/-- The tuple list `create_sparse_index` builds: for each document id in
`range(len(largecounter))`, one `(doc_id, token_id)` tuple per key of that
document's counter, in order. -/
def sparse_tuples (largecounter : List Counter) : List (Nat × Nat) :=
  (List.range largecounter.length).flatMap
    (fun key => (counterKeys (largecounter.getD key [])).map (fun value => (key, value)))

/-- `create_sparse_index(largecounter)`: builds the tuple list and wraps it
in a `pd.MultiIndex`; `pd.MultiIndex.from_tuples` raises on an empty tuple
list. -/
def create_sparse_index (largecounter : List Counter) :
    Except PdError (List (Nat × Nat)) :=
  let tuples := sparse_tuples largecounter
  if tuples.isEmpty then .error .emptyTupleList else .ok tuples

/-- `DataFrame.set_value(key, 0, v)`: replace the value of every row whose
index equals `key` (the keys of the table are never enlarged here, since
every key written is already in the index). -/
def setValue (tbl : List ((Nat × Nat) × Nat)) (key : Nat × Nat) (v : Nat) :
    List ((Nat × Nat) × Nat) :=
  tbl.map (fun e => if e.1 == key then (key, v) else e)

/-- `populate_two(sparse_index, largecounter)`: a one-column table of zeros
indexed by the sparse index, then for each `doc_id` in
`range(len(sparse_index.levels[0]))` (the number of distinct document ids in
the index) and each `token_id` grouped under it, set the stored value to
`largecounter[doc_id][token_id]`.  Looking up a `doc_id` absent from the
groupby dictionary raises `KeyError`. -/
def populate_two (sparse_index : List (Nat × Nat)) (largecounter : List Counter) :
    Except PdError (List ((Nat × Nat) × Nat)) :=
  let init := sparse_index.map (fun p => (p, 0))
  let docLevels := pySet (sparse_index.map (fun p => p.1))
  (List.range docLevels.length).foldlM
    (fun tbl doc_id =>
      if (sparse_index.map (fun p => p.1)).contains doc_id then
        .ok ((sparse_index.filter (fun p => p.1 == doc_id)).foldl
          (fun t p => setValue t (doc_id, p.2) (counterVal (largecounter.getD doc_id []) p.2))
          tbl)
      else .error .keyError)
    init

/-- Reading one cell of the populated table: the stored value at index
`(d, t)`, or `0` when `(d, t)` is outside the sparse index. -/
def tableVal (tbl : List ((Nat × Nat) × Nat)) (d t : Nat) : Nat :=
  ((tbl.find? (fun e => e.1 == (d, t))).map (fun e => e.2)).getD 0

/-- Materializing the sparse table into a dense `(document × type)` grid of
`n` document rows and `v` type columns. -/
def materialize_dense (tbl : List ((Nat × Nat) × Nat)) (n v : Nat) :
    List (List Nat) :=
  (List.range n).map (fun d => (List.range v).map (fun t => tableVal tbl d t))

/-- The per-row (per-document) sums of a dense grid. -/
def row_sums (grid : List (List Nat)) : List Nat := grid.map (fun r => r.sum)

/-- The per-column (per-type) sums of a dense grid with `v` columns. -/
def col_sums (grid : List (List Nat)) (v : Nat) : List Nat :=
  (List.range v).map (fun t => (grid.map (fun row => row.getD t 0)).sum)

/-! ### Feature selector -/

/-- A dense document-term `DataFrame` as the feature selector consumes it:
one entry per type, `(type id, the type's row of per-document counts)`,
rows listed in type-id order. -/
abbrev DF := List (Nat × List Nat)

/-- The maximum of a row (`Series.max()` over the documents). -/
def rowMax (row : List Nat) : Nat := row.foldr max 0

/-- Insertion step of `sort_values(ascending=False)` on `(label, value)`
pairs: pandas reverses a stable ascending argsort, so an element inserted
later is placed before every earlier element whose value is `≤` its own
(among ties, the later-positioned element ends up first). -/
def insertDesc (x : Nat × Nat) : List (Nat × Nat) → List (Nat × Nat)
  | [] => [x]
  | y :: ys => if y.2 ≤ x.2 then x :: y :: ys else y :: insertDesc x ys

/-- `Series.sort_values(ascending=False)` on `(label, value)` pairs. -/
def sort_values_desc (l : List (Nat × Nat)) : List (Nat × Nat) :=
  l.foldl (fun acc x => insertDesc x acc) []

/-- `find_stopwords(docterm_matrix, mfw)`:
`set(docterm_matrix.T.max().sort_values(ascending=False)[:mfw].index)` —
the per-type maxima over the documents, sorted descending, the first `mfw`
labels as a set. -/
def find_stopwords (docterm_matrix : DF) (mfw : Nat) : Finset Nat :=
  (((sort_values_desc (docterm_matrix.map (fun r => (r.1, rowMax r.2)))).take mfw).map
    (fun p => p.1)).toFinset

/-- `find_hapax(docterm_matrix)`:
`set(docterm_matrix[(docterm_matrix <= 1).all(axis=1)].index)` — the labels
of the rows all of whose counts are `≤ 1`. -/
def find_hapax (docterm_matrix : DF) : Finset Nat :=
  ((docterm_matrix.filter (fun r => r.2.all (fun c => c ≤ 1))).map
    (fun p => p.1)).toFinset

/-- The `features` argument of `remove_features`, which Python type-checks
at runtime: either a `set` of row labels or some other collection (e.g. a
list, possibly with duplicates). -/
inductive PyFeatures where
  | set : List Nat → PyFeatures
  | list : List Nat → PyFeatures

/-- Failures of `remove_features`. -/
inductive RemoveError where
  | unboundLocal : RemoveError
  | keyError : RemoveError
deriving DecidableEq

/-- `remove_features(docterm_matrix, features)`: when `features` is a set,
`docterm_matrix.drop(features)` — which raises `KeyError` if any label is
missing from the index, and otherwise returns a new frame without the
matching rows; when `features` is not a set, `clean_term_frequency` is
never assigned and the `return` raises `UnboundLocalError` (this accidental
failure is what realizes the spec's `InvalidFeatureSet`). -/
def remove_features (docterm_matrix : DF) (features : PyFeatures) :
    Except RemoveError DF :=
  match features with
  | .set s =>
    if s.all (fun f => (docterm_matrix.map (fun r => r.1)).contains f) then
      .ok (docterm_matrix.filter (fun r => !s.contains r.1))
    else .error .keyError
  | .list _ => .error .unboundLocal

/-! ### Segmenter -/

/-- `segmenter(doc_txt, length)`: for each character position `i` of the
document with `i % length == 0`, yield the slice `doc[i : i + length]`. -/
def segmenter (doc : List Char) (length : Nat) : List (List Char) :=
  (List.range doc.length).filterMap
    (fun i => if i % length = 0 then some ((doc.drop i).take length) else none)

/-- `tempset`: `set([token.lower() for token in doc])` for a zipped
(label, tokens) pair. -/
def tsetOf (p : String × List String) : List String := pySet (p.2.map pyLower)

/-- The order the claim asserts for `find_stopwords`: descending by the
per-type maximum, ties broken in favour of the lower type id. -/
def tieLowerOrder (a b : Nat × Nat) : Prop := b.2 < a.2 ∨ (a.2 = b.2 ∧ a.1 ≤ b.1)

/-- The order `find_stopwords` actually realizes: descending by the
per-type maximum, ties broken in favour of the higher type id (pandas
implements the descending sort by reversing a stable ascending sort). -/
def tieHigherOrder (a b : Nat × Nat) : Prop := b.2 < a.2 ∨ (a.2 = b.2 ∧ b.1 ≤ a.1)

instance : DecidableRel tieLowerOrder := fun a b => by
  unfold tieLowerOrder
  exact inferInstance

instance : DecidableRel tieHigherOrder := fun a b => by
  unfold tieHigherOrder
  exact inferInstance

/-- The top-`mfw` types under the claim's order (spec-side reference). -/
def stopwords_spec_tie_lower (docterm_matrix : DF) (mfw : Nat) : Finset Nat :=
  ((((docterm_matrix.map (fun r => (r.1, rowMax r.2))).insertionSort tieLowerOrder).take mfw).map
    (fun p => p.1)).toFinset

/-- The top-`mfw` types under the amended order (spec-side reference). -/
def stopwords_spec_tie_higher (docterm_matrix : DF) (mfw : Nat) : Finset Nat :=
  ((((docterm_matrix.map (fun r => (r.1, rowMax r.2))).insertionSort tieHigherOrder).take mfw).map
    (fun p => p.1)).toFinset

/-! ### The concrete scenario -/

/-- The spec's concrete two-document corpus, tokenized with the default
pattern. -/
def scenario_tokens : List (List String) :=
  [tokenize "the cat sat." regular_expression false,
   tokenize "the dog sat." regular_expression false]

/-- The scenario's vocabulary build. -/
def scenario_TF :
    List (Nat × String) × List (String × List (List String)) × List (Nat × String) :=
  create_large_TF_matrix ["doc1", "doc2"] scenario_tokens

/-- The token → type-id mapping, the inverse of the scenario's
`type_dictionary`. -/
def scenario_termdoc : List (String × Nat) := scenario_TF.1.map (fun p => (p.2, p.1))

/-- The scenario's frequency build: the counters keyed by the scenario's
document labels `"doc1"`, `"doc2"`. -/
def scenario_largecounter : List (PyKey × Counter) :=
  (create_large_counter [PyKey.str "doc1", PyKey.str "doc2"] scenario_tokens
    scenario_termdoc).toOption.getD []

/-- The scenario's per-document counters as stored under their labels
(document 0 is `"doc1"`, document 1 is `"doc2"`). -/
def scenario_counters : List Counter :=
  [(scenario_largecounter.lookup (PyKey.str "doc1")).getD [],
   (scenario_largecounter.lookup (PyKey.str "doc2")).getD []]

/-- The scenario's dense document-term frame handed to the feature
selector: one row per type id, the row holding that type's counts in
documents 0 and 1. -/
def scenario_dense : DF :=
  (List.range 4).map (fun t => (t, (List.range 2).map
    (fun d => counterVal (scenario_counters.getD d []) t)))

/-! ### Feature removal: supporting lemmas -/

theorem remove_features_set_ok (m : DF) (s : List Nat)
    (h : ∀ f ∈ s, f ∈ m.map (fun r => r.1)) :
    remove_features m (.set s) = .ok (m.filter (fun r => !s.contains r.1)) := by
  unfold remove_features
  have hall : s.all (fun f => (m.map (fun r => r.1)).contains f) = true := by
    rw [List.all_eq_true]
    intro f hf
    simpa using h f hf
  simp [hall]
  intro f hf
  obtain ⟨r, hr, hfr⟩ := List.mem_map.mp (h f hf)
  exact ⟨r.2, by rw [← hfr]; simpa using hr⟩

theorem mem_filter_not_contains (m : DF) (s : List Nat) (r : Nat × List Nat) :
    r ∈ m.filter (fun r => !s.contains r.1) ↔ r ∈ m ∧ r.1 ∉ s := by
  simp [List.mem_filter]

/-- C3: for every document-term matrix `M` and every set `F` of row
identifiers of `M`, `remove_features(M, F)` returns a matrix in which no
row identifier is in `F`, and every row of `M` whose identifier is not in
`F` appears with counts identical to its row in `M`.  (The input matrix is
left unchanged: `drop` returns a new frame, and in this pure embedding the
argument is never mutated.) -/
theorem remove_features_drops_exactly (m : DF) (s : List Nat)
    (h : ∀ f ∈ s, f ∈ m.map (fun r => r.1)) :
    ∃ m', remove_features m (.set s) = .ok m' ∧
      (∀ r ∈ m', r.1 ∉ s) ∧
      (∀ r ∈ m, r.1 ∉ s → r ∈ m') := by
  refine ⟨m.filter (fun r => !s.contains r.1), remove_features_set_ok m s h, ?_, ?_⟩
  · intro r hr
    exact ((mem_filter_not_contains m s r).mp hr).2
  · intro r hr hrs
    exact (mem_filter_not_contains m s r).mpr ⟨hr, hrs⟩

theorem remove_features_drops_exactly_witness :
    ∃ m', remove_features [(0, [1, 2]), (1, [3, 4]), (2, [5, 6])] (.set [1]) = .ok m' ∧
      (∀ r ∈ m', r.1 ∉ [1]) ∧
      (∀ r ∈ [(0, [1, 2]), (1, [3, 4]), (2, [5, 6])], r.1 ∉ [1] → r ∈ m') :=
  remove_features_drops_exactly [(0, [1, 2]), (1, [3, 4]), (2, [5, 6])] [1] (by decide)

/-- C8: for every matrix and every `features` argument that is not a set,
`remove_features` raises (the local `clean_term_frequency` is never bound,
so the `return` fails — the failure the spec names `InvalidFeatureSet`)
rather than returning a matrix; the input matrix is not touched on that
path. -/
theorem remove_features_non_set_errors (m : DF) (l : List Nat) :
    remove_features m (.list l) = .error .unboundLocal := rfl

/-- C10: `remove_features(M, F)` with a set `F` returns a matrix exactly
when every identifier of `F` occurs among `M`'s row identifiers; if some
identifier is unknown it raises (`DataFrame.drop` raises `KeyError`)
instead of silently ignoring it. -/
theorem remove_features_unknown_label_errors (m : DF) (s : List Nat) :
    (¬ (∀ f ∈ s, f ∈ m.map (fun r => r.1)) →
        remove_features m (.set s) = .error .keyError) ∧
    ((∀ f ∈ s, f ∈ m.map (fun r => r.1)) →
        ∃ m', remove_features m (.set s) = .ok m') := by
  constructor
  · intro hnot
    have : s.all (fun f => (m.map (fun r => r.1)).contains f) = false := by
      by_contra hne
      apply hnot
      intro f hf
      have := List.all_eq_true.mp (eq_true_of_ne_false hne) f hf
      simpa using this
    simp only [remove_features]
    rw [this]
    simp
  · intro h
    exact ⟨m.filter (fun r => !s.contains r.1), remove_features_set_ok m s h⟩

theorem remove_features_unknown_label_errors_witness :
    remove_features [(0, [1, 2])] (.set [5]) = .error .keyError :=
  (remove_features_unknown_label_errors [(0, [1, 2])] [5]).1 (by decide)

/-! ### Segmenter: supporting lemmas -/

theorem segmenter_nil (L : Nat) : segmenter [] L = [] := rfl

theorem segmenter_head_block (doc : List Char) (L : Nat) (hL : 0 < L)
    (hd : doc ≠ []) :
    (List.range (min L doc.length)).filterMap
      (fun i => if i % L = 0 then some ((doc.drop i).take L) else none) =
      [doc.take L] := by
  obtain ⟨m, hm⟩ : ∃ m, min L doc.length = m + 1 := by
    have h1 : 0 < doc.length := List.length_pos.mpr hd
    have : 0 < min L doc.length := lt_min hL h1
    exact ⟨min L doc.length - 1, by omega⟩
  rw [hm, List.range_succ_eq_map, List.filterMap_cons, List.filterMap_map]
  have h0 : (0 : Nat) % L = 0 := Nat.zero_mod L
  simp only [h0, if_pos]
  have hrest : ((List.range m).filterMap
      ((fun i => if i % L = 0 then some ((doc.drop i).take L) else none) ∘ Nat.succ)) = [] := by
    rw [List.filterMap_eq_nil_iff]
    intro i hi
    have h1 : i < m := List.mem_range.mp hi
    have h2 : min L doc.length ≤ L := min_le_left L doc.length
    have h3 : (i + 1) % L = i + 1 := Nat.mod_eq_of_lt (by omega)
    simp [Function.comp, Nat.succ_eq_add_one, h3]
  rw [hrest]
  simp

theorem segmenter_cons (doc : List Char) (L : Nat) (hL : 0 < L)
    (hd : doc ≠ []) :
    segmenter doc L = doc.take L :: segmenter (doc.drop L) L := by
  unfold segmenter
  have hsplit : List.range doc.length =
      List.range (min L doc.length) ++
        List.range' (min L doc.length) (doc.length - min L doc.length) := by
    have h0 : (doc.length - min L doc.length) + min L doc.length = doc.length := by omega
    calc List.range doc.length = List.range' 0 doc.length := List.range_eq_range' _
      _ = List.range' 0 ((doc.length - min L doc.length) + min L doc.length) := by rw [h0]
      _ = List.range' 0 (min L doc.length) ++
            List.range' (0 + min L doc.length) (doc.length - min L doc.length) :=
          (List.range'_append_1 0 (min L doc.length) (doc.length - min L doc.length)).symm
      _ = List.range (min L doc.length) ++
            List.range' (min L doc.length) (doc.length - min L doc.length) := by
          rw [Nat.zero_add, ← List.range_eq_range']
  rw [hsplit, List.filterMap_append]
  rw [segmenter_head_block doc L hL hd]
  have htail : (List.range' (min L doc.length) (doc.length - min L doc.length)).filterMap
      (fun i => if i % L = 0 then some ((doc.drop i).take L) else none) =
      (List.range (doc.drop L).length).filterMap
        (fun i => if i % L = 0 then some (((doc.drop L).drop i).take L) else none) := by
    rcases le_or_lt doc.length L with hcase | hcase
    · have h1 : min L doc.length = doc.length := min_eq_right hcase
      have h2 : (doc.drop L).length = 0 := by
        rw [List.length_drop]
        omega
      rw [h1, h2]
      simp
    · have h1 : min L doc.length = L := min_eq_left (le_of_lt hcase)
      rw [h1, List.range'_eq_map_range, List.filterMap_map]
      have h2 : (doc.drop L).length = doc.length - L := List.length_drop L doc
      rw [h2]
      apply List.filterMap_congr
      intro i hi
      have hmod : (L + i) % L = i % L := Nat.add_mod_left L i
      simp [Function.comp, hmod]
  rw [htail]
  rfl

theorem segmenter_eq_nil_iff (doc : List Char) (L : Nat) (hL : 0 < L) :
    segmenter doc L = [] ↔ doc = [] := by
  constructor
  · intro h
    by_contra hd
    rw [segmenter_cons doc L hL hd] at h
    exact List.cons_ne_nil _ _ h
  · intro h
    rw [h]
    rfl

/-- C9: for every document and every positive segment length `L`, the
segmenter yields contiguous, non-overlapping slices in source order —
concatenating them in order reproduces the document exactly — every slice
has length at most `L`, and every slice except possibly the final one has
length exactly `L`. -/
theorem segmenter_slices (doc : List Char) (L : Nat) (hL : 0 < L) :
    (segmenter doc L).flatten = doc ∧
    (∀ s ∈ segmenter doc L, s.length ≤ L) ∧
    (∀ s ∈ (segmenter doc L).dropLast, s.length = L) := by
  generalize hn : doc.length = n
  induction n using Nat.strong_induction_on generalizing doc with
  | _ n ih =>
    rcases eq_or_ne doc [] with hd | hd
    · subst hd
      refine ⟨rfl, ?_, ?_⟩ <;> intro s hs <;> simp [segmenter_nil] at hs
    · rw [segmenter_cons doc L hL hd]
      have hpos : 0 < doc.length := List.length_pos.mpr hd
      have hlt : (doc.drop L).length < n := by
        rw [List.length_drop]
        omega
      obtain ⟨ihf, ihle, ihlast⟩ := ih (doc.drop L).length hlt (doc.drop L) rfl
      refine ⟨?_, ?_, ?_⟩
      · simp only [List.flatten_cons, ihf, List.take_append_drop]
      · intro s hs
        rcases List.mem_cons.mp hs with h | h
        · subst h
          exact List.length_take_le L doc
        · exact ihle s h
      · intro s hs
        rcases eq_or_ne (segmenter (doc.drop L) L) [] with hrest | hrest
        · rw [hrest] at hs
          simp at hs
        · rw [List.dropLast_cons_of_ne_nil hrest] at hs
          rcases List.mem_cons.mp hs with h | h
          · subst h
            have hdl : doc.drop L ≠ [] := by
              intro hcontra
              exact hrest ((segmenter_eq_nil_iff (doc.drop L) L hL).mpr hcontra)
            have hlen : L ≤ doc.length := by
              by_contra hcon
              apply hdl
              apply List.drop_eq_nil_of_le
              omega
            simp [List.length_take]
            omega
          · exact ihlast s h

theorem segmenter_slices_witness :
    (segmenter "abcdefgh".data 3).flatten = "abcdefgh".data ∧
    (∀ s ∈ segmenter "abcdefgh".data 3, s.length ≤ 3) ∧
    (∀ s ∈ (segmenter "abcdefgh".data 3).dropLast, s.length = 3) :=
  segmenter_slices "abcdefgh".data 3 (by decide)

/-! ### Sparse index: supporting lemmas -/

theorem counterVal_ne_zero_iff (c : Counter) (hpos : ∀ p ∈ c, 0 < p.2) (t : Nat) :
    counterVal c t ≠ 0 ↔ t ∈ counterKeys c := by
  induction c with
  | nil => simp [counterVal, counterKeys, List.lookup]
  | cons hd tl ih =>
    obtain ⟨k, v⟩ := hd
    have ih' := ih (fun p hp => hpos p (List.mem_cons_of_mem _ hp))
    by_cases hk : t = k
    · subst hk
      have hv : 0 < v := hpos (t, v) (List.mem_cons_self _ _)
      simp only [counterVal, List.lookup, beq_self_eq_true]
      simp [counterKeys]
      omega
    · have hbeq : (t == k) = false := beq_eq_false_iff_ne.mpr hk
      simp only [counterVal, List.lookup, hbeq]
      have hkeys : t ∈ counterKeys ((k, v) :: tl) ↔ t ∈ counterKeys tl := by
        simp [counterKeys, hk]
      rw [hkeys]
      exact ih'

theorem mem_sparse_tuples (lc : List Counter) (d t : Nat) :
    (d, t) ∈ sparse_tuples lc ↔
      d < lc.length ∧ t ∈ counterKeys (lc.getD d []) := by
  rw [sparse_tuples, List.mem_flatMap]
  constructor
  · rintro ⟨key, hkey, hmem⟩
    obtain ⟨v, hv, heq⟩ := List.mem_map.mp hmem
    injection heq with h1 h2
    subst h1
    subst h2
    exact ⟨List.mem_range.mp hkey, hv⟩
  · rintro ⟨hd, ht⟩
    exact ⟨d, List.mem_range.mpr hd, List.mem_map.mpr ⟨t, ht, rfl⟩⟩

/-- C6 (amended): given per-document counters with positive stored counts
(the `Counter` invariant) of which at least one is non-empty,
`create_sparse_index` succeeds and its index holds exactly the
`(document id, type id)` pairs with non-zero count; in particular a
document with zero tokens contributes zero entries.  (When every document
is empty the builder fails instead: `pd.MultiIndex.from_tuples` rejects an
empty tuple list — see the counterexample.) -/
theorem create_sparse_index_support (lc : List Counter)
    (hpos : ∀ c ∈ lc, ∀ p ∈ c, 0 < p.2)
    (hne : ∃ c ∈ lc, c ≠ []) :
    ∃ si, create_sparse_index lc = .ok si ∧
      ∀ d t, ((d, t) ∈ si ↔ d < lc.length ∧ counterVal (lc.getD d []) t ≠ 0) := by
  have hposd : ∀ d, d < lc.length → ∀ q ∈ lc.getD d [], 0 < q.2 := by
    intro d hd q hq
    apply hpos (lc.getD d [])
    · rw [List.getD_eq_getElem?_getD, List.getElem?_eq_getElem hd]
      exact List.getElem_mem _
    · exact hq
  obtain ⟨c, hc, hcne⟩ := hne
  obtain ⟨i, hi, hgi⟩ := List.mem_iff_getElem.mp hc
  have hgetD : lc.getD i [] = c := by
    rw [List.getD_eq_getElem?_getD, List.getElem?_eq_getElem hi, hgi]
    rfl
  obtain ⟨p, hp⟩ : ∃ p, p ∈ c := by
    cases c with
    | nil => exact absurd rfl hcne
    | cons q qs => exact ⟨q, List.mem_cons_self _ _⟩
  have hmem : (i, p.1) ∈ sparse_tuples lc := by
    rw [mem_sparse_tuples]
    exact ⟨hi, by rw [hgetD]; exact List.mem_map.mpr ⟨p, hp, rfl⟩⟩
  have hnonempty : (sparse_tuples lc).isEmpty = false := by
    rw [List.isEmpty_eq_false]
    intro hcon
    rw [hcon] at hmem
    exact List.not_mem_nil _ hmem
  refine ⟨sparse_tuples lc, ?_, ?_⟩
  · unfold create_sparse_index
    simp only [hnonempty]
    simp
  · intro d t
    rw [mem_sparse_tuples]
    constructor
    · rintro ⟨hd, ht⟩
      exact ⟨hd, (counterVal_ne_zero_iff _ (hposd d hd) t).mpr ht⟩
    · rintro ⟨hd, ht⟩
      exact ⟨hd, (counterVal_ne_zero_iff _ (hposd d hd) t).mp ht⟩

theorem create_sparse_index_support_witness :
    ∃ si, create_sparse_index [[(0, 1), (2, 3)], []] = .ok si ∧
      ∀ d t, ((d, t) ∈ si ↔ d < ([[(0, 1), (2, 3)], []] : List Counter).length ∧
        counterVal (([[(0, 1), (2, 3)], []] : List Counter).getD d []) t ≠ 0) :=
  create_sparse_index_support [[(0, 1), (2, 3)], []] (by decide)
    ⟨[(0, 1), (2, 3)], by decide⟩

/-- C6, the failing part of the original claim: on a corpus consisting of a
single document with zero tokens the builder does not succeed — the tuple
list is empty and `pd.MultiIndex.from_tuples` raises. -/
theorem create_sparse_index_all_empty_fails :
    create_sparse_index [[]] = .error .emptyTupleList := rfl

/-! ### Vocabulary indexer: supporting lemmas -/

theorem lookup_map_update (d : List (String × List (List String)))
    (k : String) (f : List (List String) → List (List String)) (q : String) :
    ((d.map (fun p => if p.1 == k then (p.1, f p.2) else p)).lookup q) =
      if q = k then (d.lookup k).map f else d.lookup q := by
  induction d with
  | nil => by_cases hq : q = k <;> simp [hq]
  | cons hd tl ih =>
    obtain ⟨k', vs⟩ := hd
    by_cases hk' : k' = k
    · subst hk'
      by_cases hq : q = k'
      · subst hq
        simp [List.lookup_cons, ih]
      · have hbeq : (q == k') = false := by simp [hq]
        simp [hq] at ih
        simp [List.lookup_cons, hbeq, hq, ih]
    · have hbeqk : (k' == k) = false := by simp [hk']
      have hk2 : ¬ k = k' := fun h => hk' h.symm
      have hbeqk2 : (k == k') = false := by simp [hk2]
      by_cases hq : q = k'
      · subst hq
        simp only [List.map_cons, hbeqk, Bool.false_eq_true, if_false, List.lookup_cons,
          beq_self_eq_true, if_neg hk']
      · have hbeq : (q == k') = false := by simp [hq]
        by_cases hqk : q = k
        · subst hqk
          simp only [eq_self_iff_true, if_true] at ih
          simp only [List.map_cons, hbeqk, Bool.false_eq_true, if_false, List.lookup_cons, hbeq,
            eq_self_iff_true, if_true]
          exact ih
        · simp only [if_neg hqk] at ih
          simp only [List.map_cons, hbeqk, Bool.false_eq_true, if_false, List.lookup_cons, hbeq,
            if_neg hqk]
          exact ih

theorem lookup_append_new (d : List (String × List (List String)))
    (k : String) (x : List (List String)) (q : String) (hk : d.lookup k = none) :
    (d ++ [(k, x)]).lookup q = if q = k then some x else d.lookup q := by
  induction d with
  | nil =>
    by_cases hq : q = k
    · subst hq
      simp
    · have hbeq : (q == k) = false := by simp [hq]
      simp only [List.nil_append, List.lookup_cons, hbeq, List.lookup_nil, if_neg hq]
  | cons hd tl ih =>
    obtain ⟨k', vs⟩ := hd
    rw [List.lookup_cons] at hk
    have hk2 : ¬ k = k' := by
      intro h
      rw [(by simp [h] : (k == k') = true)] at hk
      exact Option.some_ne_none vs hk
    have hbkk' : (k == k') = false := by simp [hk2]
    rw [hbkk'] at hk
    have hktl : List.lookup k tl = none := hk
    by_cases hq : q = k'
    · subst hq
      rw [List.cons_append, List.lookup_cons, List.lookup_cons]
      rw [if_neg (fun h => hk2 h.symm)]
      simp
    · have hbeq : (q == k') = false := by simp [hq]
      rw [List.cons_append, List.lookup_cons, List.lookup_cons, hbeq]
      exact ih hktl

theorem lookup_isSome_iff_any (d : List (String × List (List String))) (k : String) :
    (d.lookup k).isSome = d.any (fun p => p.1 == k) := by
  induction d with
  | nil => simp [List.lookup]
  | cons hd tl ih =>
    obtain ⟨k', vs⟩ := hd
    by_cases hk : k = k'
    · subst hk
      simp [List.lookup_cons]
    · have h1 : (k == k') = false := by simp [hk]
      have hk2 : ¬ k' = k := fun h => hk h.symm
      have h2 : (k' == k) = false := by simp [hk2]
      rw [List.lookup_cons, h1, List.any_cons, h2]
      simp [ih]

theorem dictAppend_lookup (d : List (String × List (List String)))
    (k : String) (v : List String) (q : String) :
    (dictAppend d k v).lookup q =
      if q = k then some ((d.lookup k).getD [] ++ [v]) else d.lookup q := by
  unfold dictAppend
  by_cases hany : d.any (fun p => p.1 == k) = true
  · rw [if_pos hany]
    have hsome : (d.lookup k).isSome = true := by rw [lookup_isSome_iff_any]; exact hany
    obtain ⟨vs, hvs⟩ := Option.isSome_iff_exists.mp hsome
    rw [lookup_map_update d k (fun ws => ws ++ [v]) q]
    by_cases hq : q = k
    · rw [if_pos hq, if_pos hq, hvs]
      rfl
    · rw [if_neg hq, if_neg hq]
  · rw [if_neg hany]
    have hnone : d.lookup k = none := by
      cases ho : d.lookup k with
      | none => rfl
      | some vs =>
        exfalso
        apply hany
        rw [← lookup_isSome_iff_any, ho]
        rfl
    rw [lookup_append_new d k [v] q hnone]
    by_cases hq : q = k
    · rw [if_pos hq, if_pos hq, hnone]
      rfl
    · rw [if_neg hq, if_neg hq]


theorem foldl_pair_snd {α β γ : Type} (f : α × β → γ → α × β) (g : β → γ → β)
    (hf : ∀ st p, (f st p).2 = g st.2 p) :
    ∀ (ps : List γ) (st : α × β), (ps.foldl f st).2 = ps.foldl g st.2 := by
  intro ps
  induction ps with
  | nil => intro st; rfl
  | cons p ps ih =>
    intro st
    rw [List.foldl_cons, List.foldl_cons, ih, hf]

theorem dict_fold_lookup (ps : List (String × List String)) :
    ∀ (d : List (String × List (List String))) (q : String),
    ((ps.foldl (fun d p => dictAppend d p.1 (tsetOf p)) d).lookup q) =
      if ((d.lookup q).isSome || (ps.map (fun p => p.1)).contains q) = true
      then some ((d.lookup q).getD [] ++ (ps.filter (fun p => p.1 == q)).map tsetOf)
      else none := by
  induction ps with
  | nil =>
    intro d q
    cases ho : d.lookup q <;> simp [ho]
  | cons p ps ih =>
    intro d q
    rw [List.foldl_cons, ih (dictAppend d p.1 (tsetOf p)) q, dictAppend_lookup d p.1 (tsetOf p) q]
    by_cases hq : q = p.1
    · rw [if_pos hq]
      have hbeq : (p.1 == q) = true := by simp [hq]
      have hcontains : ((p :: ps).map (fun p => p.1)).contains q = true := by
        simp [hq]
      rw [hcontains]
      simp only [Option.isSome_some, Bool.true_or, if_pos rfl, Bool.or_true, Option.getD_some]
      rw [List.filter_cons, hbeq]
      simp [List.append_assoc, hq]
    · rw [if_neg hq]
      have hq2 : ¬ p.1 = q := fun h => hq h.symm
      have hbeq : (p.1 == q) = false := by simp [hq2]
      have hcon : ((p :: ps).map (fun p => p.1)).contains q = (ps.map (fun p => p.1)).contains q := by
        simp [List.contains_cons, fun h : q = p.1 => hq h]
      rw [hcon, List.filter_cons, hbeq]
      simp

/-- C7 (amended): the vocabulary indexer never fails on duplicate labels.
`doc_ids` enumerates every position of `doc_labels`, duplicates included,
and `doc_dictionary` holds one entry per distinct label: looking up a label
returns the list of the type sets of all documents bearing it, in input
order, so duplicate-labelled documents are merged under their shared label
rather than rejected. -/
theorem create_large_TF_matrix_duplicate_labels (doc_labels : List String)
    (doc_tokens : List (List String)) (q : String) :
    (create_large_TF_matrix doc_labels doc_tokens).2.2 = doc_labels.enum ∧
    ((create_large_TF_matrix doc_labels doc_tokens).2.1.lookup q =
      if ((doc_labels.zip doc_tokens).map (fun p => p.1)).contains q
      then some (((doc_labels.zip doc_tokens).filter (fun p => p.1 == q)).map tsetOf)
      else none) := by
  constructor
  · rfl
  · have h1 : (create_large_TF_matrix doc_labels doc_tokens).2.1 =
        (doc_labels.zip doc_tokens).foldl (fun d p => dictAppend d p.1 (tsetOf p)) [] := by
      simp only [create_large_TF_matrix]
      exact foldl_pair_snd _ _ (fun st p => rfl) _ _
    rw [h1, dict_fold_lookup]
    rw [List.lookup_nil]
    rfl

/-- C7, counterexample to the original claim: two documents sharing the
label `"a"` do not make `create_large_TF_matrix` fail — it returns
normally, assigns document ids `0` and `1` (both mapped to `"a"`), and
merges both documents' type sets under the single `doc_dictionary` key
`"a"`. -/
theorem create_large_TF_matrix_accepts_duplicate_labels :
    create_large_TF_matrix ["a", "a"] [["x"], ["y"]] =
      ([(0, "x"), (1, "y")], [("a", [["x"], ["y"]])], [(0, "a"), (1, "a")]) := rfl

/-! ### Tokenizer: supporting lemmas -/

theorem toLower_eq_period_iff (c : Char) : Char.toLower c = '.' ↔ c = '.' := by
  constructor
  · intro h
    simp only [Char.toLower] at h
    by_cases hcond : c.toNat ≥ 65 ∧ c.toNat ≤ 90
    · rw [if_pos hcond] at h
      exfalso
      obtain ⟨h1, h2⟩ := hcond
      set n := c.toNat with hn
      interval_cases n <;> exact absurd h (by decide)
    · rwa [if_neg hcond] at h
  · intro h
    subst h
    decide

/-- Deleting periods and lower-casing commute: the source lower-cases and
then deletes periods, the spec's reading deletes periods first. -/
theorem stripPeriods_pyLower_comm (s : String) :
    stripPeriods (pyLower s) = pyLower (stripPeriods s) := by
  show String.mk ((s.data.map Char.toLower).filter (fun c => c != '.')) =
    String.mk ((s.data.filter (fun c => c != '.')).map Char.toLower)
  congr 1
  rw [List.filter_map]
  have hpred : ((fun c : Char => c != '.') ∘ Char.toLower) = (fun c : Char => c != '.') := by
    funext c
    show (Char.toLower c != '.') = (c != '.')
    by_cases hc : c = '.'
    · subst hc
      decide
    · have h1 : Char.toLower c ≠ '.' := fun h => hc ((toLower_eq_period_iff c).mp h)
      have e1 : (Char.toLower c != '.') = true := bne_iff_ne.mpr h1
      have e2 : (c != '.') = true := bne_iff_ne.mpr hc
      rw [e1, e2]
  rw [hpred]

theorem matchLens_nil_zero : ∀ (fuel : Nat) (r : RE), ∀ n ∈ matchLens fuel r [], n = 0 := by
  intro fuel
  induction fuel with
  | zero => intro r n hn; simp [matchLens] at hn
  | succ fuel ih =>
    intro r n hn
    cases r with
    | eps =>
      simp only [matchLens, List.mem_singleton] at hn
      exact hn
    | cls p => simp [matchLens] at hn
    | cat r1 r2 =>
      simp only [matchLens, List.mem_flatMap, List.mem_map] at hn
      obtain ⟨a, ha, m, hm, heq⟩ := hn
      have ha0 := ih r1 a ha
      subst ha0
      rw [List.drop_nil] at hm
      have hm0 := ih r2 m hm
      omega
    | alt r1 r2 =>
      simp only [matchLens, List.mem_append] at hn
      rcases hn with h | h
      · exact ih r1 n h
      · exact ih r2 n h
    | star r =>
      simp only [matchLens, List.mem_append, List.mem_flatMap, List.mem_map,
        List.mem_filter, List.mem_singleton] at hn
      rcases hn with ⟨a, ⟨ha, hane⟩, _⟩ | h
      · exact absurd (ih r a ha) (by simpa using hane)
      · exact h

theorem matchLens_nil_eq_nil : ∀ (fuel : Nat) (r : RE), r.nullable = false →
    matchLens fuel r [] = [] := by
  intro fuel
  induction fuel with
  | zero => intro r _; rfl
  | succ fuel ih =>
    intro r h
    cases r with
    | eps => simp [RE.nullable] at h
    | cls p => rfl
    | alt r1 r2 =>
      simp only [RE.nullable, Bool.or_eq_false_iff] at h
      simp [matchLens, ih r1 h.1, ih r2 h.2]
    | cat r1 r2 =>
      simp only [RE.nullable, Bool.and_eq_false_iff] at h
      rcases h with h | h
      · simp [matchLens, ih r1 h]
      · simp only [matchLens]
        rw [List.flatMap_eq_nil_iff]
        intro a _
        rw [List.drop_nil, ih r2 h]
        rfl
    | star r => simp [RE.nullable] at h

theorem tokenize_empty_of_not_nullable (r : RE) (h : r.nullable = false) :
    tokenize "" r false = [] := by
  have h2 : firstMatchLen r [] = none := by
    unfold firstMatchLen
    rw [matchLens_nil_eq_nil _ r h]
    rfl
  show (finditer r (stripPeriods (pyLower "")).data).map String.mk = []
  have h3 : (stripPeriods (pyLower "")).data = [] := rfl
  rw [h3]
  show (finditerF 0 r []).map String.mk = []
  unfold finditerF
  rw [h2]
  simp

/-- C5 (amended): with `simple=False`, `tokenize` yields exactly the matches
of the compiled pattern, in left-to-right order, against the text with all
literal periods removed and lower-cased (the source lower-cases first and
then deletes periods; the two normalizations commute); and for every
pattern that does not match the empty string, tokenizing the empty string
yields an empty sequence and raises no error.  (A pattern that does match
the empty string yields one empty match on the empty string instead — see
the counterexample.) -/
theorem tokenize_yields_pattern_matches (doc_txt : String) (expression : RE)
    (h : expression.nullable = false) :
    tokenize doc_txt expression false =
      (finditer expression (pyLower (stripPeriods doc_txt)).data).map String.mk ∧
    tokenize "" expression false = [] := by
  constructor
  · show (finditer expression (stripPeriods (pyLower doc_txt)).data).map String.mk = _
    rw [stripPeriods_pyLower_comm]
  · exact tokenize_empty_of_not_nullable expression h

theorem tokenize_yields_pattern_matches_witness :
    tokenize "A.b c" regular_expression false =
      (finditer regular_expression (pyLower (stripPeriods "A.b c")).data).map String.mk ∧
    tokenize "" regular_expression false = [] :=
  tokenize_yields_pattern_matches "A.b c" regular_expression rfl

/-- C5, counterexample to the original claim: for a pattern that matches
the empty string (here `[\p{Letter}]*`), tokenizing the empty string yields
one empty match, not an empty sequence. -/
theorem tokenize_empty_string_nullable_pattern :
    tokenize "" (RE.star (RE.cls isLetterCh)) false = [""] ∧
    tokenize "" (RE.star (RE.cls isLetterCh)) false ≠ [] := by
  constructor
  · rfl
  · decide

/-! ### Stopword selection: supporting lemmas -/


theorem insertDesc_perm (x : Nat × Nat) (acc : List (Nat × Nat)) :
    List.Perm (insertDesc x acc) (x :: acc) := by
  induction acc with
  | nil => rfl
  | cons y ys ih =>
    unfold insertDesc
    by_cases h : y.2 ≤ x.2
    · rw [if_pos h]
    · rw [if_neg h]
      exact (ih.cons y).trans (List.Perm.swap x y ys)

theorem pairwise_snd_le_of_tieHigher (y : Nat × Nat) (ys : List (Nat × Nat))
    (h : List.Pairwise tieHigherOrder (y :: ys)) :
    ∀ z ∈ ys, z.2 ≤ y.2 := by
  intro z hz
  have := (List.pairwise_cons.mp h).1 z hz
  unfold tieHigherOrder at this
  omega

theorem insertDesc_pairwise (x : Nat × Nat) (acc : List (Nat × Nat))
    (hacc : List.Pairwise tieHigherOrder acc)
    (hlab : ∀ a ∈ acc, a.1 < x.1) :
    List.Pairwise tieHigherOrder (insertDesc x acc) := by
  induction acc with
  | nil => simp [insertDesc]
  | cons y ys ih =>
    unfold insertDesc
    by_cases h : y.2 ≤ x.2
    · rw [if_pos h]
      refine List.pairwise_cons.mpr ⟨?_, hacc⟩
      intro z hz
      have hz2 : z.2 ≤ x.2 := by
        rcases List.mem_cons.mp hz with rfl | hz'
        · exact h
        · exact le_trans (pairwise_snd_le_of_tieHigher y ys hacc z hz') h
      have hz1 : z.1 < x.1 := hlab z hz
      unfold tieHigherOrder
      omega
    · rw [if_neg h]
      refine List.pairwise_cons.mpr ⟨?_, ?_⟩
      · intro z hz
        have hz' : z = x ∨ z ∈ ys := by
          have := (insertDesc_perm x ys).mem_iff.mp hz
          simpa using this
        rcases hz' with rfl | hz'
        · unfold tieHigherOrder
          omega
        · exact (List.pairwise_cons.mp hacc).1 z hz'
      · exact ih (List.pairwise_cons.mp hacc).2
          (fun a ha => hlab a (List.mem_cons_of_mem _ ha))

theorem sort_values_desc_perm_aux (l : List (Nat × Nat)) :
    ∀ acc, List.Perm (l.foldl (fun acc x => insertDesc x acc) acc) (acc ++ l) := by
  induction l with
  | nil => intro acc; simp
  | cons x xs ih =>
    intro acc
    rw [List.foldl_cons]
    exact (ih (insertDesc x acc)).trans
      (((insertDesc_perm x acc).append_right xs).trans List.perm_middle.symm)

theorem sort_values_desc_perm (l : List (Nat × Nat)) :
    List.Perm (sort_values_desc l) l := by
  have := sort_values_desc_perm_aux l []
  simpa [sort_values_desc] using this

theorem sort_values_desc_sorted_aux (l : List (Nat × Nat)) :
    ∀ acc, List.Pairwise (fun a b => a.1 < b.1) l →
      List.Pairwise tieHigherOrder acc →
      (∀ a ∈ acc, ∀ b ∈ l, a.1 < b.1) →
      List.Pairwise tieHigherOrder (l.foldl (fun acc x => insertDesc x acc) acc) := by
  induction l with
  | nil => intro acc _ hacc _; exact hacc
  | cons x xs ih =>
    intro acc hl hacc hcross
    rw [List.foldl_cons]
    apply ih
    · exact (List.pairwise_cons.mp hl).2
    · exact insertDesc_pairwise x acc hacc
        (fun a ha => hcross a ha x (List.mem_cons_self _ _))
    · intro a ha b hb
      have ha' : a = x ∨ a ∈ acc := by
        have := (insertDesc_perm x acc).mem_iff.mp ha
        simpa using this
      rcases ha' with rfl | ha'
      · exact (List.pairwise_cons.mp hl).1 b hb
      · exact hcross a ha' b (List.mem_cons_of_mem _ hb)

theorem sort_values_desc_sorted (l : List (Nat × Nat))
    (hl : List.Pairwise (fun a b => a.1 < b.1) l) :
    List.Pairwise tieHigherOrder (sort_values_desc l) := by
  have := sort_values_desc_sorted_aux l [] hl List.Pairwise.nil (by simp)
  simpa [sort_values_desc] using this

theorem sort_values_desc_eq_insertionSort (l : List (Nat × Nat))
    (hl : List.Pairwise (fun a b => a.1 < b.1) l) :
    sort_values_desc l = List.insertionSort tieHigherOrder l := by
  haveI : IsTotal (Nat × Nat) tieHigherOrder := ⟨by
    intro a b
    unfold tieHigherOrder
    omega⟩
  haveI : IsTrans (Nat × Nat) tieHigherOrder := ⟨by
    intro a b c hab hbc
    unfold tieHigherOrder at *
    omega⟩
  haveI : IsAntisymm (Nat × Nat) tieHigherOrder := ⟨by
    intro a b hab hba
    unfold tieHigherOrder at *
    have h1 : a.1 = b.1 := by omega
    have h2 : a.2 = b.2 := by omega
    exact Prod.ext h1 h2⟩
  exact List.eq_of_perm_of_sorted
    ((sort_values_desc_perm l).trans (List.perm_insertionSort tieHigherOrder l).symm)
    (sort_values_desc_sorted l hl)
    (List.sorted_insertionSort tieHigherOrder l)

/-- C4 (amended): for every dense document-term matrix whose rows are
listed in increasing type-id order, and every `k`, `find_stopwords`
returns exactly the set of the top-`k` types when types are sorted
descending by their maximum single-document count with ties broken in
favour of the type with the **higher** type id: pandas realizes the
descending sort as the reverse of a stable ascending sort, so among tied
maxima the later row wins, deterministically. -/
theorem find_stopwords_top_k (docterm_matrix : DF) (mfw : Nat)
    (hlab : List.Pairwise (fun a b => a.1 < b.1) docterm_matrix) :
    find_stopwords docterm_matrix mfw = stopwords_spec_tie_higher docterm_matrix mfw := by
  unfold find_stopwords stopwords_spec_tie_higher
  rw [sort_values_desc_eq_insertionSort]
  rw [List.pairwise_map]
  exact hlab

theorem find_stopwords_top_k_witness :
    find_stopwords [(0, [3, 1]), (1, [0, 2]), (2, [2, 0])] 2 =
      stopwords_spec_tie_higher [(0, [3, 1]), (1, [0, 2]), (2, [2, 0])] 2 :=
  find_stopwords_top_k [(0, [3, 1]), (1, [0, 2]), (2, [2, 0])] 2 (by decide)

/-- C4, counterexample to the original claim: two types tied on maximum
count; with `k = 1` the code returns the higher type id, not the lower
one the claim requires. -/
theorem find_stopwords_tie_break_higher :
    find_stopwords [(0, [1]), (1, [1])] 1 = ({1} : Finset Nat) ∧
    find_stopwords [(0, [1]), (1, [1])] 1 ≠
      stopwords_spec_tie_lower [(0, [1]), (1, [1])] 1 := by
  constructor
  · rfl
  · decide

/-! ### Counter invariants -/

theorem pySetF_congr {α : Type} [BEq α] :
    ∀ (f1 f2 : Nat) (l : List α), l.length ≤ f1 → l.length ≤ f2 →
      pySetF f1 l = pySetF f2 l := by
  intro f1
  induction f1 with
  | zero =>
    intro f2 l h1 _
    have : l = [] := List.eq_nil_of_length_eq_zero (Nat.le_zero.mp h1)
    subst this
    cases f2 <;> rfl
  | succ f1 ih =>
    intro f2 l h1 h2
    cases l with
    | nil => cases f2 <;> rfl
    | cons x xs =>
      cases f2 with
      | zero => simp at h2
      | succ f2 =>
        show x :: pySetF f1 (xs.filter (fun y => y != x)) =
          x :: pySetF f2 (xs.filter (fun y => y != x))
        have hlen : (xs.filter (fun y => y != x)).length ≤ xs.length :=
          List.length_filter_le _ _
        rw [ih f2 (xs.filter (fun y => y != x)) (by simp at h1; omega) (by simp at h2; omega)]

theorem pySet_cons {α : Type} [BEq α] (x : α) (xs : List α) :
    pySet (x :: xs) = x :: pySet (xs.filter (fun y => y != x)) := by
  show pySetF (xs.length + 1) (x :: xs) = x :: pySet (xs.filter (fun y => y != x))
  show x :: pySetF xs.length (xs.filter (fun y => y != x)) = _
  rw [pySetF_congr xs.length (xs.filter (fun y => y != x)).length
    (xs.filter (fun y => y != x)) (List.length_filter_le _ _) (le_refl _)]
  rfl

theorem mem_pySet {α : Type} [BEq α] [LawfulBEq α] (l : List α) (a : α) :
    a ∈ pySet l ↔ a ∈ l := by
  generalize hn : l.length = n
  induction n using Nat.strong_induction_on generalizing l with
  | _ n ih =>
    cases l with
    | nil => simp [pySet, pySetF]
    | cons x xs =>
      rw [pySet_cons, List.mem_cons, List.mem_cons]
      by_cases hax : a = x
      · simp [hax]
      · have hlt : (xs.filter (fun y => y != x)).length < n := by
          have := List.length_filter_le (fun y => y != x) xs
          simp at hn
          omega
        rw [ih _ hlt _ rfl]
        simp [List.mem_filter, hax]

theorem nodup_pySet {α : Type} [BEq α] [LawfulBEq α] (l : List α) :
    (pySet l).Nodup := by
  generalize hn : l.length = n
  induction n using Nat.strong_induction_on generalizing l with
  | _ n ih =>
    cases l with
    | nil => simp [pySet, pySetF]
    | cons x xs =>
      rw [pySet_cons]
      have hlt : (xs.filter (fun y => y != x)).length < n := by
        have := List.length_filter_le (fun y => y != x) xs
        simp at hn
        omega
      refine List.nodup_cons.mpr ⟨?_, ih _ hlt _ rfl⟩
      intro hmem
      rw [mem_pySet] at hmem
      have := (List.mem_filter.mp hmem).2
      simp at this

theorem sum_count_pySet (l : List Nat) :
    ((pySet l).map (fun k => l.count k)).sum = l.length := by
  generalize hn : l.length = n
  induction n using Nat.strong_induction_on generalizing l with
  | _ n ih =>
    cases l with
    | nil =>
      simp at hn
      subst hn
      simp [pySet, pySetF]
    | cons x xs =>
      rw [pySet_cons, List.map_cons, List.sum_cons]
      have hlt : (xs.filter (fun y => y != x)).length < n := by
        have := List.length_filter_le (fun y => y != x) xs
        simp at hn
        omega
      have hcongr : (pySet (xs.filter (fun y => y != x))).map (fun k => (x :: xs).count k) =
          (pySet (xs.filter (fun y => y != x))).map
            (fun k => (xs.filter (fun y => y != x)).count k) := by
        apply List.map_congr_left
        intro k hk
        have hkmem := (mem_pySet _ k).mp hk
        have hkne : k ≠ x := by
          have := (List.mem_filter.mp hkmem).2
          simpa using this
        rw [List.count_cons_of_ne hkne, List.count_filter]
        simpa using hkne
      rw [hcongr, ih _ hlt _ rfl]
      have hsplit : xs.length = xs.count x + (xs.filter (fun y => y != x)).length := by
        have h1 := List.length_eq_countP_add_countP (p := fun y => y == x) (l := xs)
        have h2 : List.countP (fun y => y == x) xs = xs.count x := rfl
        have h3 : List.countP (fun a => !(a == x)) xs =
            (xs.filter (fun y => y != x)).length := by
          rw [List.countP_eq_length_filter]
          rfl
        rw [h2] at h1
        rw [← h3]
        rw [h1]
        apply congrArg
        apply List.countP_congr
        intro a _
        cases h : (a == x) <;> simp [h]
      rw [List.count_cons_self]
      simp at hn
      omega

theorem counterKeys_pyCounter (l : List Nat) :
    counterKeys (pyCounter l) = pySet l := by
  unfold counterKeys pyCounter
  rw [List.map_map]
  have h : ((fun p : Nat × Nat => p.1) ∘ fun k => (k, l.count k)) = fun k => k := rfl
  rw [h, List.map_id']

theorem lookup_map_pair (ks : List Nat) (f : Nat → Nat) (t : Nat) :
    (ks.map (fun k => (k, f k))).lookup t = if t ∈ ks then some (f t) else none := by
  induction ks with
  | nil => simp
  | cons k ks ih =>
    by_cases htk : t = k
    · subst htk
      simp [List.lookup_cons]
    · have hbeq : (t == k) = false := by simp [htk]
      rw [List.map_cons, List.lookup_cons, hbeq, ih]
      by_cases ht : t ∈ ks
      · simp [ht, htk]
      · simp [ht, htk]

theorem counterVal_pyCounter (l : List Nat) (t : Nat) :
    counterVal (pyCounter l) t = l.count t := by
  unfold counterVal pyCounter
  rw [lookup_map_pair]
  by_cases ht : t ∈ pySet l
  · simp [ht]
  · have htl : t ∉ l := fun h => ht ((mem_pySet l t).mpr h)
    simp [ht, List.count_eq_zero.mpr htl]

theorem countSum_pyCounter (l : List Nat) :
    countSum (pyCounter l) = l.length := by
  unfold countSum pyCounter
  rw [List.map_map]
  have : ((fun p : Nat × Nat => p.2) ∘ fun k => (k, l.count k)) = fun k => l.count k := rfl
  rw [this]
  exact sum_count_pySet l

theorem pyCounter_ne_nil (l : List Nat) (h : l ≠ []) : pyCounter l ≠ [] := by
  cases l with
  | nil => exact absurd rfl h
  | cons x xs =>
    unfold pyCounter
    rw [pySet_cons, List.map_cons]
    exact List.cons_ne_nil _ _

/-! ### populate_two: supporting lemmas -/

theorem setValue_eq (tbl : List ((Nat × Nat) × Nat)) (key : Nat × Nat) (v : Nat) :
    setValue tbl key v = tbl.map (fun e => if e.1 = key then (key, v) else e) := by
  unfold setValue
  apply List.map_congr_left
  intro e _
  by_cases h : e.1 = key <;> simp [h]

theorem foldl_setValue_group (G : List (Nat × Nat)) (d : Nat) (cv : Nat → Nat) :
    ∀ tbl, (∀ p ∈ G, p.1 = d) →
      G.foldl (fun t p => setValue t (d, p.2) (cv p.2)) tbl =
        tbl.map (fun e => if e.1 ∈ G then (e.1, cv e.1.2) else e) := by
  induction G with
  | nil =>
    intro tbl _
    simp
  | cons p G' ih =>
    intro tbl hG
    rw [List.foldl_cons]
    have hp1 : p.1 = d := hG p (List.mem_cons_self _ _)
    have hpp : (d, p.2) = p := by
      rw [← hp1]
    rw [ih (setValue tbl (d, p.2) (cv p.2)) (fun q hq => hG q (List.mem_cons_of_mem _ hq))]
    rw [setValue_eq, List.map_map]
    apply List.map_congr_left
    intro e _
    show (fun e' => if e'.1 ∈ G' then (e'.1, cv e'.1.2) else e')
        (if e.1 = (d, p.2) then ((d, p.2), cv p.2) else e) =
      if e.1 ∈ p :: G' then (e.1, cv e.1.2) else e
    by_cases hkey : e.1 = (d, p.2)
    · rw [if_pos hkey]
      show (if (d, p.2) ∈ G' then ((d, p.2), cv p.2) else ((d, p.2), cv p.2)) =
        if e.1 ∈ p :: G' then (e.1, cv e.1.2) else e
      rw [ite_self]
      have hmem : e.1 ∈ p :: G' := by
        rw [hkey, hpp]
        exact List.mem_cons_self _ _
      rw [if_pos hmem, hkey]
    · rw [if_neg hkey]
      show (if e.1 ∈ G' then (e.1, cv e.1.2) else e) =
        if e.1 ∈ p :: G' then (e.1, cv e.1.2) else e
      by_cases hG' : e.1 ∈ G'
      · rw [if_pos hG', if_pos (List.mem_cons_of_mem _ hG')]
      · have hnp : e.1 ∉ p :: G' := by
          intro hc
          rcases List.mem_cons.mp hc with hc | hc
          · rw [← hpp] at hc
            exact hkey hc
          · exact hG' hc
        rw [if_neg hG', if_neg hnp]

theorem foldl_docs (si : List (Nat × Nat)) (lc : List Counter) :
    ∀ (ds : List Nat) (S : Nat → Bool),
      ds.foldl (fun tbl doc_id => (si.filter (fun p => p.1 == doc_id)).foldl
          (fun t p => setValue t (doc_id, p.2) (counterVal (lc.getD doc_id []) p.2)) tbl)
        (si.map (fun p => (p, if S p.1 then counterVal (lc.getD p.1 []) p.2 else 0))) =
      si.map (fun p =>
        (p, if S p.1 || ds.contains p.1 then counterVal (lc.getD p.1 []) p.2 else 0)) := by
  intro ds
  induction ds with
  | nil =>
    intro S
    rw [List.foldl_nil]
    apply List.map_congr_left
    intro p _
    have h : (S p.1 || ([] : List Nat).contains p.1) = S p.1 := by simp
    rw [h]
  | cons d ds' ih =>
    intro S
    rw [List.foldl_cons]
    rw [foldl_setValue_group (si.filter (fun p => p.1 == d)) d (counterVal (lc.getD d []))
      _ (fun p hp => by simpa using (List.mem_filter.mp hp).2)]
    rw [List.map_map]
    have hstep : si.map ((fun e => if e.1 ∈ si.filter (fun p => p.1 == d)
          then (e.1, counterVal (lc.getD d []) e.1.2) else e) ∘
          (fun p => (p, if S p.1 then counterVal (lc.getD p.1 []) p.2 else 0))) =
        si.map (fun p =>
          (p, if S p.1 || (p.1 == d) then counterVal (lc.getD p.1 []) p.2 else 0)) := by
      apply List.map_congr_left
      intro p hp
      show (if p ∈ si.filter (fun q => q.1 == d)
          then (p, counterVal (lc.getD d []) p.2)
          else (p, if S p.1 then counterVal (lc.getD p.1 []) p.2 else 0)) =
        (p, if S p.1 || (p.1 == d) then counterVal (lc.getD p.1 []) p.2 else 0)
      by_cases hpd : p.1 = d
      · have hmem : p ∈ si.filter (fun q => q.1 == d) :=
          List.mem_filter.mpr ⟨hp, by simp [hpd]⟩
        rw [if_pos hmem]
        have hcond : (S p.1 || (p.1 == d)) = true := by simp [hpd]
        rw [hcond, if_pos rfl, hpd]
      · have hmem : p ∉ si.filter (fun q => q.1 == d) := by
          intro hc
          exact hpd (by simpa using (List.mem_filter.mp hc).2)
        rw [if_neg hmem]
        have hcond : (S p.1 || (p.1 == d)) = S p.1 := by simp [hpd]
        rw [hcond]
    rw [hstep, ih (fun x => S x || (x == d))]
    apply List.map_congr_left
    intro p _
    have h : ((S p.1 || (p.1 == d)) || ds'.contains p.1) = (S p.1 || (d :: ds').contains p.1) := by
      rw [List.contains_cons, Bool.or_assoc]
    rw [h]

theorem foldlM_populate (si : List (Nat × Nat)) (lc : List Counter) :
    ∀ (ds : List Nat) (tbl : List ((Nat × Nat) × Nat)),
      (∀ d ∈ ds, (si.map (fun p => p.1)).contains d) →
      (ds.foldlM (fun tbl doc_id =>
          if (si.map (fun p => p.1)).contains doc_id then
            Except.ok ((si.filter (fun p => p.1 == doc_id)).foldl
              (fun t p => setValue t (doc_id, p.2) (counterVal (lc.getD doc_id []) p.2)) tbl)
          else Except.error PdError.keyError) tbl) =
        Except.ok (ds.foldl (fun tbl doc_id => (si.filter (fun p => p.1 == doc_id)).foldl
          (fun t p => setValue t (doc_id, p.2) (counterVal (lc.getD doc_id []) p.2)) tbl) tbl) := by
  intro ds
  induction ds with
  | nil => intro tbl _; rfl
  | cons d ds' ih =>
    intro tbl hall
    rw [List.foldlM_cons, if_pos (hall d (List.mem_cons_self _ _))]
    rw [List.foldl_cons]
    exact ih _ (fun x hx => hall x (List.mem_cons_of_mem _ hx))

theorem pySet_flatMap_blocks :
    ∀ (ds : List Nat) (f : Nat → List Nat), ds.Nodup → (∀ d ∈ ds, f d ≠ []) →
      pySet (ds.flatMap (fun d => (f d).map (fun _ => d))) = ds := by
  intro ds
  induction ds with
  | nil => intro f _ _; rfl
  | cons d ds' ih =>
    intro f hnodup hne
    rw [List.flatMap_cons]
    obtain ⟨c, cs, hcs⟩ : ∃ c cs, f d = c :: cs := by
      cases hfd : f d with
      | nil => exact absurd hfd (hne d (List.mem_cons_self _ _))
      | cons c cs => exact ⟨c, cs, rfl⟩
    rw [hcs, List.map_cons, List.cons_append, pySet_cons]
    have hd_not : d ∉ ds' := (List.nodup_cons.mp hnodup).1
    have hfil : (cs.map (fun _ => d) ++
        ds'.flatMap (fun d' => (f d').map (fun _ => d'))).filter (fun y => y != d) =
        ds'.flatMap (fun d' => (f d').map (fun _ => d')) := by
      rw [List.filter_append]
      have h1 : (cs.map (fun _ => d)).filter (fun y => y != d) = [] := by
        rw [List.filter_eq_nil_iff]
        intro a ha
        have : a = d := by
          obtain ⟨_, _, h⟩ := List.mem_map.mp ha
          exact h.symm
        simp [this]
      have h2 : (ds'.flatMap (fun d' => (f d').map (fun _ => d'))).filter (fun y => y != d) =
          ds'.flatMap (fun d' => (f d').map (fun _ => d')) := by
        rw [List.filter_eq_self]
        intro a ha
        obtain ⟨d', hd', ha'⟩ := List.mem_flatMap.mp ha
        obtain ⟨_, _, hval⟩ := List.mem_map.mp ha'
        have had : a = d' := hval.symm
        subst had
        have : a ≠ d := fun h => hd_not (h ▸ hd')
        simpa using this
      rw [h1, h2, List.nil_append]
    rw [hfil]
    rw [ih f (List.nodup_cons.mp hnodup).2 (fun d' hd' => hne d' (List.mem_cons_of_mem _ hd'))]

theorem sparse_doc_ids (lc : List Counter) (hne : ∀ c ∈ lc, c ≠ []) :
    pySet ((sparse_tuples lc).map (fun p => p.1)) = List.range lc.length := by
  have h1 : (sparse_tuples lc).map (fun p => p.1) =
      (List.range lc.length).flatMap
        (fun key => (counterKeys (lc.getD key [])).map (fun _ => key)) := by
    unfold sparse_tuples
    rw [List.map_flatMap]
    congr 1
    funext key
    rw [List.map_map]
    have h2 : ((fun p : Nat × Nat => p.1) ∘ fun value => (key, value)) =
        (fun _ : Nat => key) := rfl
    rw [h2]
  rw [h1]
  exact pySet_flatMap_blocks (List.range lc.length) (fun key => counterKeys (lc.getD key []))
    (List.nodup_range lc.length)
    (fun d hd => by
      have hdlt := List.mem_range.mp hd
      have hcmem : lc.getD d [] ∈ lc := by
        rw [List.getD_eq_getElem?_getD, List.getElem?_eq_getElem hdlt]
        exact List.getElem_mem _
      have hcne := hne _ hcmem
      intro hk
      apply hcne
      unfold counterKeys at hk
      exact List.map_eq_nil_iff.mp hk)

theorem populate_two_ok (lc : List Counter) (hne : ∀ c ∈ lc, c ≠ []) :
    populate_two (sparse_tuples lc) lc =
      .ok ((sparse_tuples lc).map (fun p => (p, counterVal (lc.getD p.1 []) p.2))) := by
  unfold populate_two
  simp only [sparse_doc_ids lc hne, List.length_range]
  have hall : ∀ d ∈ List.range lc.length,
      ((sparse_tuples lc).map (fun p => p.1)).contains d := by
    intro d hd
    have hdlt := List.mem_range.mp hd
    have hcmem : lc.getD d [] ∈ lc := by
      rw [List.getD_eq_getElem?_getD, List.getElem?_eq_getElem hdlt]
      exact List.getElem_mem _
    have hcne := hne _ hcmem
    obtain ⟨q, hq⟩ : ∃ q, q ∈ lc.getD d [] := by
      cases hcase : lc.getD d [] with
      | nil => exact absurd hcase hcne
      | cons a as => exact ⟨a, hcase ▸ List.mem_cons_self a as⟩
    have hmem : (d, q.1) ∈ sparse_tuples lc :=
      (mem_sparse_tuples lc d q.1).mpr ⟨hdlt, List.mem_map.mpr ⟨q, hq, rfl⟩⟩
    have hmem2 : d ∈ (sparse_tuples lc).map (fun p => p.1) :=
      List.mem_map.mpr ⟨(d, q.1), hmem, rfl⟩
    simpa using hmem2
  rw [foldlM_populate (sparse_tuples lc) lc (List.range lc.length) _ hall]
  congr 1
  have hinit : (sparse_tuples lc).map (fun p => ((p : Nat × Nat), (0 : Nat))) =
      (sparse_tuples lc).map (fun p =>
        (p, if (fun _ : Nat => false) p.1 then counterVal (lc.getD p.1 []) p.2 else 0)) := by
    apply List.map_congr_left
    intro p _
    rfl
  rw [hinit, foldl_docs (sparse_tuples lc) lc (List.range lc.length) (fun _ => false)]
  apply List.map_congr_left
  intro p hp
  have hp' : (p.1, p.2) ∈ sparse_tuples lc := by
    simpa using hp
  have hp1 : p.1 < lc.length := ((mem_sparse_tuples lc p.1 p.2).mp hp').1
  have hcond : ((fun _ : Nat => false) p.1 || (List.range lc.length).contains p.1) = true := by
    simp [hp1]
  rw [hcond, if_pos rfl]

theorem tableVal_map (si : List (Nat × Nat)) (g : Nat × Nat → Nat) (d t : Nat) :
    tableVal (si.map (fun p => (p, g p))) d t = if (d, t) ∈ si then g (d, t) else 0 := by
  induction si with
  | nil => simp [tableVal]
  | cons p si' ih =>
    unfold tableVal at ih ⊢
    rw [List.map_cons]
    by_cases hpd : p = (d, t)
    · subst hpd
      rw [List.find?_cons_of_pos _ (by simp)]
      simp
    · rw [List.find?_cons_of_neg _ (by simpa using hpd)]
      rw [ih]
      have hmem : ((d, t) ∈ p :: si') ↔ ((d, t) ∈ si') := by
        rw [List.mem_cons]
        constructor
        · rintro (h | h)
          · exact absurd h.symm hpd
          · exact h
        · exact Or.inr
      by_cases hin : (d, t) ∈ si'
      · rw [if_pos hin, if_pos (hmem.mpr hin)]
      · rw [if_neg hin, if_neg (fun hc => hin (hmem.mp hc))]

theorem sum_list_range_map (f : Nat → Nat) (n : Nat) :
    ((List.range n).map f).sum = ∑ i ∈ Finset.range n, f i := by
  induction n with
  | zero => simp
  | succ n ih =>
    rw [List.range_succ, List.map_append, List.sum_append, Finset.sum_range_succ, ih]
    simp

theorem sum_keys_counterVal (c : Counter) (hnodup : (counterKeys c).Nodup) :
    (∑ t ∈ (counterKeys c).toFinset, counterVal c t) = countSum c := by
  induction c with
  | nil => simp [counterKeys, countSum]
  | cons kv c' ih =>
    obtain ⟨k, v⟩ := kv
    have hkeys : counterKeys ((k, v) :: c') = k :: counterKeys c' := rfl
    rw [hkeys] at hnodup
    have hk : k ∉ counterKeys c' := (List.nodup_cons.mp hnodup).1
    have hnodup' : (counterKeys c').Nodup := (List.nodup_cons.mp hnodup).2
    rw [hkeys, List.toFinset_cons, Finset.sum_insert (by simpa using hk)]
    have h1 : counterVal ((k, v) :: c') k = v := by
      unfold counterVal
      rw [List.lookup_cons]
      simp
    have h2 : (∑ t ∈ (counterKeys c').toFinset, counterVal ((k, v) :: c') t) =
        ∑ t ∈ (counterKeys c').toFinset, counterVal c' t := by
      apply Finset.sum_congr rfl
      intro t ht
      have htk : ¬ t = k := fun h => hk (h ▸ (List.mem_toFinset.mp ht))
      unfold counterVal
      rw [List.lookup_cons]
      have hb : (t == k) = false := by simp [htk]
      rw [hb]
    rw [h1, h2, ih hnodup']
    show v + countSum c' = countSum ((k, v) :: c')
    unfold countSum
    simp

theorem sum_ite_keys (c : Counter) (V : Nat) (hnodup : (counterKeys c).Nodup)
    (hkeys : ∀ k ∈ counterKeys c, k < V) :
    (∑ t ∈ Finset.range V, if t ∈ counterKeys c then counterVal c t else 0) = countSum c := by
  have h0 : (∑ t ∈ Finset.range V, if t ∈ counterKeys c then counterVal c t else 0) =
      ∑ t ∈ Finset.range V, if t ∈ (counterKeys c).toFinset then counterVal c t else 0 := by
    apply Finset.sum_congr rfl
    intro t _
    by_cases ht : t ∈ counterKeys c
    · rw [if_pos ht, if_pos (List.mem_toFinset.mpr ht)]
    · rw [if_neg ht, if_neg (fun hc => ht (List.mem_toFinset.mp hc))]
  rw [h0, Finset.sum_ite_mem]
  have hsub : (counterKeys c).toFinset ⊆ Finset.range V := by
    intro t ht
    exact Finset.mem_range.mpr (hkeys t (List.mem_toFinset.mp ht))
  rw [Finset.inter_eq_right.mpr hsub]
  exact sum_keys_counterVal c hnodup

theorem map_range_getD {α β : Type} (l : List α) (dflt : α) (f : α → β) :
    (List.range l.length).map (fun i => f (l.getD i dflt)) = l.map f := by
  induction l with
  | nil => rfl
  | cons x xs ih =>
    rw [List.length_cons, List.range_succ_eq_map, List.map_cons, List.map_map, List.map_cons]
    have htail : (List.range xs.length).map
        ((fun i => f ((x :: xs).getD i dflt)) ∘ Nat.succ) = xs.map f := by
      rw [← ih]
      apply List.map_congr_left
      intro i _
      rfl
    rw [htail]
    rfl

theorem getD_map_list {α β : Type} (l : List α) (f : α → β) (d : Nat) (dflt : β)
    (dflt2 : α) (hd : d < l.length) :
    (l.map f).getD d dflt = f (l.getD d dflt2) := by
  rw [List.getD_eq_getElem?_getD, List.getD_eq_getElem?_getD, List.getElem?_map,
    List.getElem?_eq_getElem hd]
  rfl

theorem getD_range_map (f : Nat → Nat) (V t : Nat) (ht : t < V) :
    ((List.range V).map f).getD t 0 = f t := by
  have h : t < (List.range V).length := by simpa using ht
  rw [List.getD_eq_getElem?_getD, List.getElem?_map, List.getElem?_eq_getElem h]
  simp

theorem counterVal_eq_zero_of_not_mem (c : Counter) (t : Nat)
    (h : t ∉ counterKeys c) : counterVal c t = 0 := by
  unfold counterVal
  rw [List.lookup_eq_none_iff.mpr]
  · rfl
  · intro p hp
    have : t ≠ p.1 := fun he => h (he ▸ List.mem_map.mpr ⟨p, hp, rfl⟩)
    simpa using this

theorem create_sparse_index_ok (lc : List Counter) (hne2 : ∃ c ∈ lc, c ≠ []) :
    create_sparse_index lc = .ok (sparse_tuples lc) := by
  obtain ⟨c, hc, hcne⟩ := hne2
  obtain ⟨i, hi, hgi⟩ := List.mem_iff_getElem.mp hc
  have hgetD : lc.getD i [] = c := by
    rw [List.getD_eq_getElem?_getD, List.getElem?_eq_getElem hi, hgi]
    rfl
  obtain ⟨p, hp⟩ : ∃ p, p ∈ c := by
    cases c with
    | nil => exact absurd rfl hcne
    | cons q qs => exact ⟨q, List.mem_cons_self _ _⟩
  have hmem : (i, p.1) ∈ sparse_tuples lc := by
    rw [mem_sparse_tuples]
    exact ⟨hi, by rw [hgetD]; exact List.mem_map.mpr ⟨p, hp, rfl⟩⟩
  have hnonempty : (sparse_tuples lc).isEmpty = false := by
    rw [List.isEmpty_eq_false]
    intro hcon
    rw [hcon] at hmem
    exact List.not_mem_nil _ hmem
  unfold create_sparse_index
  simp only [hnonempty]
  simp

theorem pyListComp_ok (termdoc_matrix : List (String × Nat)) (tokens : List String)
    (hok : ∀ token ∈ tokens, (termdoc_matrix.lookup (pyLower token)).isSome = true) :
    pyListComp termdoc_matrix tokens =
      .ok (tokens.map (fun token => (termdoc_matrix.lookup (pyLower token)).getD 0)) := by
  induction tokens with
  | nil => rfl
  | cons t ts ih =>
    have h1 := hok t (List.mem_cons_self _ _)
    obtain ⟨i, hi⟩ := Option.isSome_iff_exists.mp h1
    have h2 := ih (fun token htok => hok token (List.mem_cons_of_mem _ htok))
    unfold pyListComp
    rw [hi, h2]
    simp [hi, Except.map]

theorem clc_fold (termdoc_matrix : List (String × Nat)) :
    ∀ (toks : List (List String)) (s : Nat) (acc : List (PyKey × Counter)),
    (∀ tks ∈ toks, ∀ token ∈ tks, (termdoc_matrix.lookup (pyLower token)).isSome = true) →
    (∀ q ∈ acc, ∀ k, s ≤ k → q.1 ≠ PyKey.int k) →
    (((List.range' s toks.length).map PyKey.int).zip toks).foldlM
        (clcStep termdoc_matrix) acc =
      .ok (acc ++ (((List.range' s toks.length).map PyKey.int).zip toks).map
        (fun p => (p.1, counterOfTokens termdoc_matrix p.2))) := by
  intro toks
  induction toks with
  | nil =>
    intro s acc _ _
    show Except.ok acc = Except.ok (acc ++ _)
    simp
  | cons t ts ih =>
    intro s acc hok hfresh
    have hrange : List.range' s (t :: ts).length = s :: List.range' (s + 1) ts.length := by
      rfl
    rw [hrange]
    show (((PyKey.int s :: (List.range' (s + 1) ts.length).map PyKey.int)).zip (t :: ts)).foldlM
        (clcStep termdoc_matrix) acc = _
    rw [List.zip_cons_cons, List.foldlM_cons]
    have hstep : clcStep termdoc_matrix acc (PyKey.int s, t) =
        .ok (acc ++ [(PyKey.int s, counterOfTokens termdoc_matrix t)]) := by
      unfold clcStep
      rw [pyListComp_ok termdoc_matrix t (hok t (List.mem_cons_self _ _))]
      show Except.ok (dictSet acc (PyKey.int s) (counterOfTokens termdoc_matrix t)) = _
      unfold dictSet
      have hany : acc.any (fun p => p.1 == PyKey.int s) = false := by
        rw [List.any_eq_false]
        intro p hp
        have := hfresh p hp s (Nat.le_refl s)
        simp [this]
      rw [hany]
      simp
    rw [hstep]
    show (((List.range' (s + 1) ts.length).map PyKey.int).zip ts).foldlM
        (clcStep termdoc_matrix) (acc ++ [(PyKey.int s, counterOfTokens termdoc_matrix t)]) = _
    rw [ih (s + 1) (acc ++ [(PyKey.int s, counterOfTokens termdoc_matrix t)])
      (fun tks htks token htok => hok tks (List.mem_cons_of_mem _ htks) token htok)
      ?_]
    · simp
    · intro q hq k hk
      rcases List.mem_append.mp hq with hq1 | hq2
      · exact hfresh q hq1 k (Nat.le_of_succ_le hk)
      · simp at hq2
        rw [hq2]
        intro hcon
        have hcon2 : PyKey.int s = PyKey.int k := hcon
        have : s = k := by injection hcon2
        omega

theorem clc_lookup (termdoc_matrix : List (String × Nat)) :
    ∀ (toks : List (List String)) (s k : Nat), k < toks.length →
    ((((List.range' s toks.length).map PyKey.int).zip toks).map
        (fun p => (p.1, counterOfTokens termdoc_matrix p.2))).lookup (PyKey.int (s + k)) =
      some (counterOfTokens termdoc_matrix (toks.getD k [])) := by
  intro toks
  induction toks with
  | nil => intro s k hk; simp at hk
  | cons t ts ih =>
    intro s k hk
    have hrange : List.range' s (t :: ts).length = s :: List.range' (s + 1) ts.length := rfl
    rw [hrange]
    show ((PyKey.int s, counterOfTokens termdoc_matrix t) ::
        ((((List.range' (s + 1) ts.length).map PyKey.int).zip ts).map
          (fun p => (p.1, counterOfTokens termdoc_matrix p.2)))).lookup (PyKey.int (s + k)) = _
    rw [List.lookup_cons]
    cases k with
    | zero =>
      simp
    | succ j =>
      have hne : (PyKey.int (s + (j + 1)) == PyKey.int s) = false := by
        rw [beq_eq_false_iff_ne]
        intro hcon
        have : s + (j + 1) = s := by injection hcon
        omega
      rw [hne]
      have hshift : s + (j + 1) = (s + 1) + j := by omega
      rw [hshift]
      have hj : j < ts.length := by simpa using hk
      rw [ih (s + 1) j hj]
      rfl

/-- Under the integer labeling `0 .. n-1` — the only labeling whose
counters the integer-subscripting consumers can see — `create_large_counter`
succeeds and `countersSeen` recovers exactly the positional per-document
counters. -/
theorem create_large_counter_int_labels (doc_tokens : List (List String))
    (termdoc_matrix : List (String × Nat))
    (hok : ∀ toks ∈ doc_tokens, ∀ token ∈ toks,
      (termdoc_matrix.lookup (pyLower token)).isSome = true) :
    ∃ lc, create_large_counter ((List.range doc_tokens.length).map PyKey.int)
        doc_tokens termdoc_matrix = .ok lc ∧
      countersSeen lc = countersOf doc_tokens termdoc_matrix := by
  have hr : List.range doc_tokens.length = List.range' 0 doc_tokens.length :=
    List.range_eq_range' _
  refine ⟨(((List.range' 0 doc_tokens.length).map PyKey.int).zip doc_tokens).map
    (fun p => (p.1, counterOfTokens termdoc_matrix p.2)), ?_, ?_⟩
  · unfold create_large_counter
    rw [hr]
    exact clc_fold termdoc_matrix doc_tokens 0 [] hok (fun q hq => by simp at hq)
  · unfold countersSeen
    have hlen : ((((List.range' 0 doc_tokens.length).map PyKey.int).zip doc_tokens).map
        (fun p => (p.1, counterOfTokens termdoc_matrix p.2))).length = doc_tokens.length := by
      simp
    rw [hlen]
    have hmap : (List.range doc_tokens.length).map
        (fun key => (((((List.range' 0 doc_tokens.length).map PyKey.int).zip doc_tokens).map
          (fun p => (p.1, counterOfTokens termdoc_matrix p.2))).lookup (PyKey.int key)).getD []) =
        (List.range doc_tokens.length).map
          (fun key => counterOfTokens termdoc_matrix (doc_tokens.getD key [])) := by
      apply List.map_congr_left
      intro key hkey
      have hklt := List.mem_range.mp hkey
      have h0 : PyKey.int key = PyKey.int (0 + key) := by rw [Nat.zero_add]
      rw [h0, clc_lookup termdoc_matrix doc_tokens 0 key hklt]
      rfl
    rw [hmap]
    unfold countersOf
    exact map_range_getD doc_tokens [] (counterOfTokens termdoc_matrix)

/-- C1 (amended): for a corpus whose document labels are the integers
`0 .. n-1` in position order — the only labeling under which the
integer-subscripting consumers of `largecounter` observe the stored
counters at all — and in which every document has at least one token, all
of them in the vocabulary, the pipeline `create_large_counter` →
`create_sparse_index` → `populate_two` succeeds, and materializing the
sparse table into a dense (document × type) grid reproduces, as row sums,
each document's total token count, and as column sums, each type's total
corpus frequency as computed directly from the per-document `Counter`
output of `create_large_counter`.  (With any other labels — e.g. the file
paths the pipeline uses — every integer read of the label-keyed
`defaultdict` yields an empty dict and `pd.MultiIndex.from_tuples([])`
raises; and even with integer labels, a document with zero tokens
preceding a non-empty one makes `populate_two` raise `KeyError` — see the
counterexample.) -/
theorem sparse_dense_equivalence (doc_tokens : List (List String))
    (termdoc_matrix : List (String × Nat)) (V : Nat)
    (hcorpus : doc_tokens ≠ [])
    (hne : ∀ toks ∈ doc_tokens, toks ≠ [])
    (hV : ∀ toks ∈ doc_tokens, ∀ token ∈ toks,
      (termdoc_matrix.lookup (pyLower token)).isSome = true ∧
      ((termdoc_matrix.lookup (pyLower token)).getD 0) < V) :
    ∃ lc0 si tbl,
      create_large_counter ((List.range doc_tokens.length).map PyKey.int)
        doc_tokens termdoc_matrix = .ok lc0 ∧
      create_sparse_index (countersSeen lc0) = .ok si ∧
      populate_two si (countersSeen lc0) = .ok tbl ∧
      row_sums (materialize_dense tbl doc_tokens.length V) =
        doc_tokens.map (fun toks => toks.length) ∧
      col_sums (materialize_dense tbl doc_tokens.length V) V =
        (List.range V).map (fun t => corpusFreq (countersSeen lc0) t) := by
  obtain ⟨lc0, hok0, hseen⟩ := create_large_counter_int_labels doc_tokens termdoc_matrix
    (fun toks htoks token htok => (hV toks htoks token htok).1)
  set lc := countersOf doc_tokens termdoc_matrix with hlc
  have hlen : lc.length = doc_tokens.length := by
    rw [hlc]
    unfold countersOf
    exact List.length_map _ _
  have hcne : ∀ c ∈ lc, c ≠ [] := by
    intro c hc
    rw [hlc] at hc
    obtain ⟨toks, htoks, hceq⟩ := List.mem_map.mp hc
    rw [← hceq]
    unfold counterOfTokens
    apply pyCounter_ne_nil
    intro hmapnil
    exact hne toks htoks (List.map_eq_nil_iff.mp hmapnil)
  have hex : ∃ c ∈ lc, c ≠ [] := by
    cases hlcnil : lc with
    | nil =>
      exfalso
      apply hcorpus
      have : doc_tokens.length = 0 := by rw [← hlen, hlcnil]; rfl
      exact List.eq_nil_of_length_eq_zero this
    | cons c cs =>
      refine ⟨c, List.mem_cons_self _ _, ?_⟩
      apply hcne
      rw [hlcnil]
      exact List.mem_cons_self _ _
  have hgetD : ∀ d, d < doc_tokens.length → lc.getD d [] =
      pyCounter ((doc_tokens.getD d []).map
        (fun token => (termdoc_matrix.lookup (pyLower token)).getD 0)) := by
    intro d hd
    rw [hlc]
    unfold countersOf
    exact getD_map_list doc_tokens _ d [] [] hd
  have hdocmem : ∀ d, d < doc_tokens.length → doc_tokens.getD d [] ∈ doc_tokens := by
    intro d hd
    rw [List.getD_eq_getElem?_getD, List.getElem?_eq_getElem hd]
    exact List.getElem_mem _
  have hknodup : ∀ d, d < doc_tokens.length → (counterKeys (lc.getD d [])).Nodup := by
    intro d hd
    rw [hgetD d hd, counterKeys_pyCounter]
    exact nodup_pySet _
  have hkbound : ∀ d, d < doc_tokens.length → ∀ k ∈ counterKeys (lc.getD d []), k < V := by
    intro d hd k hk
    rw [hgetD d hd, counterKeys_pyCounter] at hk
    have hk2 := (mem_pySet _ k).mp hk
    obtain ⟨token, htok, hkeq⟩ := List.mem_map.mp hk2
    rw [← hkeq]
    exact (hV _ (hdocmem d hd) token htok).2
  refine ⟨lc0, sparse_tuples lc,
    (sparse_tuples lc).map (fun p => (p, counterVal (lc.getD p.1 []) p.2)),
    hok0, ?_, ?_, ?_, ?_⟩
  · rw [hseen]
    exact create_sparse_index_ok lc hex
  · rw [hseen]
    exact populate_two_ok lc hcne
  · unfold row_sums materialize_dense
    rw [List.map_map]
    rw [← map_range_getD doc_tokens [] (fun toks => toks.length)]
    apply List.map_congr_left
    intro d hd
    have hdlt := List.mem_range.mp hd
    show ((List.range V).map (fun t => tableVal
        ((sparse_tuples lc).map (fun p => (p, counterVal (lc.getD p.1 []) p.2))) d t)).sum =
      (doc_tokens.getD d []).length
    calc ((List.range V).map (fun t => tableVal
          ((sparse_tuples lc).map (fun p => (p, counterVal (lc.getD p.1 []) p.2))) d t)).sum
        = ((List.range V).map (fun t => if t ∈ counterKeys (lc.getD d [])
            then counterVal (lc.getD d []) t else 0)).sum := by
          congr 1
          apply List.map_congr_left
          intro t _
          rw [tableVal_map]
          by_cases hmem : (d, t) ∈ sparse_tuples lc
          · rw [if_pos hmem, if_pos (((mem_sparse_tuples lc d t).mp hmem).2)]
          · rw [if_neg hmem,
              if_neg (fun hc => hmem ((mem_sparse_tuples lc d t).mpr ⟨hlen ▸ hdlt, hc⟩))]
      _ = ∑ t ∈ Finset.range V, if t ∈ counterKeys (lc.getD d [])
            then counterVal (lc.getD d []) t else 0 := sum_list_range_map _ V
      _ = countSum (lc.getD d []) := sum_ite_keys _ V (hknodup d hdlt) (hkbound d hdlt)
      _ = (doc_tokens.getD d []).length := by
          rw [hgetD d hdlt, countSum_pyCounter, List.length_map]
  · rw [hseen]
    unfold col_sums materialize_dense
    apply List.map_congr_left
    intro t ht
    have htV := List.mem_range.mp ht
    rw [List.map_map]
    have hrows : (List.range doc_tokens.length).map
        ((fun row => row.getD t 0) ∘ (fun d => (List.range V).map (fun t' => tableVal
          ((sparse_tuples lc).map (fun p => (p, counterVal (lc.getD p.1 []) p.2))) d t'))) =
        (List.range doc_tokens.length).map (fun d => tableVal
          ((sparse_tuples lc).map (fun p => (p, counterVal (lc.getD p.1 []) p.2))) d t) := by
      apply List.map_congr_left
      intro d _
      show ((List.range V).map (fun t' => tableVal
          ((sparse_tuples lc).map (fun p => (p, counterVal (lc.getD p.1 []) p.2))) d t')).getD t 0 =
        tableVal ((sparse_tuples lc).map (fun p => (p, counterVal (lc.getD p.1 []) p.2))) d t
      exact getD_range_map _ V t htV
    rw [hrows]
    have hvals : (List.range doc_tokens.length).map (fun d => tableVal
        ((sparse_tuples lc).map (fun p => (p, counterVal (lc.getD p.1 []) p.2))) d t) =
        (List.range doc_tokens.length).map (fun d => counterVal (lc.getD d []) t) := by
      apply List.map_congr_left
      intro d hd
      have hdlt := List.mem_range.mp hd
      rw [tableVal_map]
      by_cases hmem : (d, t) ∈ sparse_tuples lc
      · rw [if_pos hmem]
      · rw [if_neg hmem]
        have hnk : t ∉ counterKeys (lc.getD d []) :=
          fun hc => hmem ((mem_sparse_tuples lc d t).mpr ⟨hlen ▸ hdlt, hc⟩)
        rw [counterVal_eq_zero_of_not_mem _ t hnk]
    rw [hvals, ← hlen, map_range_getD lc [] (fun c => counterVal c t)]
    rfl

/-- C1, counterexample to the original claim ("for every corpus"): first,
on a corpus with a string label (as the pipeline's path labels are), the
counter is stored under the label but `create_sparse_index` reads the
`defaultdict` at the integer `0`, sees an empty dict, and
`pd.MultiIndex.from_tuples([])` raises — no table exists to materialize;
second, even under integer labels, when the first document has zero tokens
the sparse index is built but `populate_two` raises `KeyError`: it iterates
`doc_id` over `range(len(sparse_index.levels[0])) = [0]` while the groupby
dictionary only has the key `1`. -/
theorem sparse_pipeline_fails :
    create_large_counter [PyKey.str "d1"] [["a"]] [("a", 0)] =
      .ok [(PyKey.str "d1", [(0, 1)])] ∧
    countersSeen [(PyKey.str "d1", [(0, 1)])] = [[]] ∧
    create_sparse_index (countersSeen [(PyKey.str "d1", [(0, 1)])]) =
      .error PdError.emptyTupleList ∧
    create_large_counter [PyKey.int 0, PyKey.int 1] [[], ["a"]] [("a", 0)] =
      .ok [(PyKey.int 0, []), (PyKey.int 1, [(0, 1)])] ∧
    countersSeen [(PyKey.int 0, []), (PyKey.int 1, [(0, 1)])] = [[], [(0, 1)]] ∧
    create_sparse_index [[], [(0, 1)]] = .ok [(1, 0)] ∧
    populate_two [(1, 0)] [[], [(0, 1)]] = Except.error PdError.keyError :=
  ⟨rfl, rfl, rfl, rfl, rfl, rfl, rfl⟩

theorem sparse_dense_equivalence_witness :
    ∃ lc0 si tbl,
      create_large_counter
          ((List.range ([["a"], ["b", "a"]] : List (List String)).length).map PyKey.int)
          [["a"], ["b", "a"]] [("a", 0), ("b", 1)] = .ok lc0 ∧
      create_sparse_index (countersSeen lc0) = .ok si ∧
      populate_two si (countersSeen lc0) = .ok tbl ∧
      row_sums (materialize_dense tbl ([["a"], ["b", "a"]] : List (List String)).length 2) =
        [["a"], ["b", "a"]].map (fun toks => toks.length) ∧
      col_sums (materialize_dense tbl ([["a"], ["b", "a"]] : List (List String)).length 2) 2 =
        (List.range 2).map (fun t => corpusFreq (countersSeen lc0) t) :=
  sparse_dense_equivalence [["a"], ["b", "a"]] [("a", 0), ("b", 1)] 2
    (by decide) (by decide) (by decide)

/-- C2 (amended): on `["the cat sat.", "the dog sat."]` the pipeline
tokenizes as the claim states, assigns type ids in first-occurrence order
(the 0, cat 1, sat 2, dog 3 — fixing the set-iteration order
deterministically), stores the correct per-document counters under the
labels "doc1" and "doc2", and gives "the" and "sat" corpus frequency 2 and
"cat" and "dog" frequency 1; but `create_sparse_index` raises instead of
producing a 6-entry index — `largecounter` is keyed by the string labels
while the builder reads it at the integers 0 and 1, so the tuple list is
empty and `pd.MultiIndex.from_tuples([])` raises; `find_hapax` returns all
four types, because every per-document count is ≤ 1; and `find_stopwords`
with k = 1 returns {"dog"}: all four types tie on maximum single-document
count 1 and the tie goes to the highest type id, not the lowest. -/
theorem scenario_pipeline :
    scenario_tokens = [["the", "cat", "sat"], ["the", "dog", "sat"]] ∧
    scenario_TF.1 = [(0, "the"), (1, "cat"), (2, "sat"), (3, "dog")] ∧
    scenario_largecounter =
      [(PyKey.str "doc1", [(0, 1), (1, 1), (2, 1)]),
       (PyKey.str "doc2", [(0, 1), (3, 1), (2, 1)])] ∧
    create_sparse_index (countersSeen scenario_largecounter) =
      .error PdError.emptyTupleList ∧
    corpusFreq scenario_counters 0 = 2 ∧ corpusFreq scenario_counters 2 = 2 ∧
    corpusFreq scenario_counters 1 = 1 ∧ corpusFreq scenario_counters 3 = 1 ∧
    scenario_dense = [(0, [1, 1]), (1, [1, 0]), (2, [1, 1]), (3, [0, 1])] ∧
    find_hapax scenario_dense = ({0, 1, 2, 3} : Finset Nat) ∧
    find_stopwords scenario_dense 1 = ({3} : Finset Nat) := by
  refine ⟨by decide, by decide, rfl, rfl, by decide, by decide, by decide, by decide,
    by decide, by decide, by decide⟩

/-- C2, counterexample to the original claim: the scenario's sparse-index
build does not produce the claimed 6-entry index — the counters are stored
under the labels "doc1"/"doc2" while `create_sparse_index` indexes the
dictionary with integers, so it raises; `find_hapax` does not return only
{cat, dog} (ids {1, 3}) — "the" and "sat" also have every per-document
count ≤ 1 — and `find_stopwords` with k = 1 returns neither {"the"}
(id 0) nor {"sat"} (id 2). -/
theorem scenario_sparse_hapax_stopwords_differ :
    create_sparse_index (countersSeen scenario_largecounter) ≠
      .ok [(0, 0), (0, 1), (0, 2), (1, 0), (1, 3), (1, 2)] ∧
    find_hapax scenario_dense ≠ ({1, 3} : Finset Nat) ∧
    find_stopwords scenario_dense 1 ≠ ({0} : Finset Nat) ∧
    find_stopwords scenario_dense 1 ≠ ({2} : Finset Nat) := by
  refine ⟨fun hcon => ?_, by decide, by decide, by decide⟩
  have herr : (Except.error PdError.emptyTupleList : Except PdError (List (Nat × Nat))) =
      .ok [(0, 0), (0, 1), (0, 2), (1, 0), (1, 3), (1, 2)] := hcon
  exact Except.noConfusion herr
